import Mathlib

/-!
# ThreadSchedule: formal model of the task scheduling and execution engine

A shallow embedding, in Lean 4, of the core of the ThreadSchedule C++ library
(`include/threadschedule/thread_pool.hpp` and
`include/threadschedule/scheduled_pool.hpp`), together with proofs of the
spec's testable properties.

Machine integers: the C++ code uses `size_t` counters.  On every state
reachable from the initial state the deque counters satisfy
`bottom ≤ top ≤ bottom + capacity` with `capacity < 2^64`, so the unsigned
difference `top - bottom` computed by the code equals truncated natural
subtraction, and no guard can observe a wrap; the counters are therefore
modelled as `Nat`.
-/

namespace ThreadSchedule

/-! ## WorkStealingDeque (thread_pool.hpp lines 23-134)

The buffer is a fixed ring of `capacity` slots indexed by `index % capacity`;
`top` is the owner push/pop end, `bottom` the thief steal end.  All four
operations run under the deque's mutex, so the sequential small-step model
below is exact for any interleaving of one owner and many thieves. -/

structure WSDeque (α : Type) where
  buf : Nat → α
  capacity : Nat
  top : Nat
  bottom : Nat

variable {α : Type}

/-- `push` (lines 57-71): fails when `t - b >= capacity_`; otherwise writes
`buffer_[t % capacity_]` and stores `t + 1` into `top_`. -/
def WSDeque.push (q : WSDeque α) (x : α) : Bool × WSDeque α :=
  if q.capacity ≤ q.top - q.bottom then (false, q)
  else
    (true,
      { q with
        buf := fun i => if i = q.top % q.capacity then x else q.buf i
        top := q.top + 1 })

/-- `pop` (lines 89-104): fails when `t <= b`; otherwise returns
`buffer_[(t-1) % capacity_]` and stores `t - 1` into `top_`. -/
def WSDeque.pop (q : WSDeque α) : Option α × WSDeque α :=
  if q.top ≤ q.bottom then (none, q)
  else (some (q.buf ((q.top - 1) % q.capacity)), { q with top := q.top - 1 })

/-- `steal` (lines 107-121): fails when `b >= t`; otherwise returns
`buffer_[b % capacity_]` and stores `b + 1` into `bottom_`. -/
def WSDeque.steal (q : WSDeque α) : Option α × WSDeque α :=
  if q.top ≤ q.bottom then (none, q)
  else (some (q.buf (q.bottom % q.capacity)), { q with bottom := q.bottom + 1 })

/-- `size` (lines 123-128): `t > b ? t - b : 0`. -/
def WSDeque.size (q : WSDeque α) : Nat :=
  if q.bottom < q.top then q.top - q.bottom else 0

/-- A freshly constructed deque (lines 51-54): both counters zero, the ring
holds default-constructed items. -/
def WSDeque.mkEmpty (d : α) (cap : Nat) : WSDeque α :=
  { buf := fun _ => d, capacity := cap, top := 0, bottom := 0 }

/-- One operation applied to a deque by the owner (`push`/`pop`) or by some
thief (`steal`).  Under the mutex each call is atomic, so an arbitrary
concurrent history is exactly a list of these operations. -/
inductive DqOp (α : Type) where
  | push (x : α)
  | pop
  | steal

def WSDeque.applyOp (q : WSDeque α) : DqOp α → WSDeque α
  | .push x => (q.push x).2
  | .pop => q.pop.2
  | .steal => q.steal.2

def WSDeque.run (q : WSDeque α) (ops : List (DqOp α)) : WSDeque α :=
  ops.foldl WSDeque.applyOp q

/-- The deque's structural invariant: the thief end never overtakes the owner
end, and the occupied count `top - bottom` never exceeds the capacity. -/
def WSDeque.Inv (q : WSDeque α) : Prop :=
  q.bottom ≤ q.top ∧ q.top - q.bottom ≤ q.capacity

instance (q : WSDeque α) : Decidable q.Inv := by
  unfold WSDeque.Inv; infer_instance

/-- Logical content of the deque: the occupied slots listed from the steal end
(`bottom`, oldest) up to the push end (`top - 1`, newest). -/
def WSDeque.content (q : WSDeque α) : List α :=
  (List.range (q.top - q.bottom)).map fun i => q.buf ((q.bottom + i) % q.capacity)

/-! ### Traced runs: which pushes were accepted, which tasks were handed out

`accepted` records the arguments of the `push` calls that returned `true`
(tasks actually stored in the buffer); `delivered` records every task a
successful `pop` or `steal` returned to its caller, in call order. -/

structure DqTrace (α : Type) where
  dq : WSDeque α
  accepted : List α
  delivered : List α

def DqTrace.applyOp (s : DqTrace α) : DqOp α → DqTrace α
  | .push x =>
      let r := s.dq.push x
      { dq := r.2
        accepted := if r.1 then s.accepted ++ [x] else s.accepted
        delivered := s.delivered }
  | .pop =>
      let r := s.dq.pop
      { dq := r.2
        accepted := s.accepted
        delivered :=
          match r.1 with
          | some x => s.delivered ++ [x]
          | none => s.delivered }
  | .steal =>
      let r := s.dq.steal
      { dq := r.2
        accepted := s.accepted
        delivered :=
          match r.1 with
          | some x => s.delivered ++ [x]
          | none => s.delivered }

def DqTrace.run (s : DqTrace α) (ops : List (DqOp α)) : DqTrace α :=
  ops.foldl DqTrace.applyOp s

def DqTrace.mk0 (d : α) (cap : Nat) : DqTrace α :=
  { dq := WSDeque.mkEmpty d cap, accepted := [], delivered := [] }

/-- The arguments of all `push` operations in a history, in order. -/
def pushedVals : List (DqOp α) → List α
  | [] => []
  | .push x :: rest => x :: pushedVals rest
  | .pop :: rest => pushedVals rest
  | .steal :: rest => pushedVals rest

/-! ## HighPerformancePool (thread_pool.hpp lines 147-590)

The pool owns `numThreads` workers, one `WorkStealingDeque` per worker, and a
shared FIFO overflow queue.  A task's type-erased body is modelled as a
function on the shared environment (a single counter suffices for the spec's
scenarios) returning the new environment and whether the body returned
normally (`false` = it raised); `dur` is its measured wall-clock execution
time in microseconds.  Each worker's loop iteration is split into the points
at which the shared atomics change: `acquire` (dequeue + `active_tasks_`
increment, plus `stolen_tasks_` when obtained via steal), `finish`
(`total_task_time_`, `active_tasks_` decrement, `completed_tasks_`
increment), and `exit` (the `break` on line 581).  `submitted` is a ghost
counter of successfully submitted tasks. -/

structure HPTask where
  body : Nat → Nat × Bool
  dur : Nat

/-- A default-constructed task slot (empty `std::function`); never executed. -/
def HPTask.idle : HPTask := ⟨fun c => (c, true), 0⟩

/-- The 10,000-increment scenario's task: increment the shared counter. -/
def incTask : HPTask := ⟨fun c => (c + 1, true), 1⟩

def isIncTask (t : HPTask) : Prop := t = incTask

structure HPState where
  numThreads : Nat
  queues : List (WSDeque HPTask)
  overflow : List HPTask
  slots : List (Option HPTask)
  exited : List Bool
  nextVictim : Nat
  stop : Bool
  active : Nat
  completed : Nat
  stolen : Nat
  totalTime : Nat
  counter : Nat
  submitted : Nat

/-- Pool construction (lines 163-181): `num_threads == 0` is coerced to 1;
each worker gets a fresh deque of the default capacity 1024. -/
def HPState.mkInit (n : Nat) : HPState where
  numThreads := if n = 0 then 1 else n
  queues := List.replicate (if n = 0 then 1 else n) (WSDeque.mkEmpty HPTask.idle 1024)
  overflow := []
  slots := List.replicate (if n = 0 then 1 else n) none
  exited := List.replicate (if n = 0 then 1 else n) false
  nextVictim := 0
  stop := false
  active := 0
  completed := 0
  stolen := 0
  totalTime := 0
  counter := 0
  submitted := 0

def tryPushAt (qs : List (WSDeque HPTask)) (idx : Nat) (t : HPTask) :
    Option (List (WSDeque HPTask)) :=
  match qs.get? idx with
  | none => none
  | some q =>
      let r := q.push t
      if r.1 then some (qs.set idx r.2) else none

def tryPushList (qs : List (WSDeque HPTask)) (idxs : List Nat) (t : HPTask) :
    Option (List (WSDeque HPTask)) :=
  match idxs with
  | [] => none
  | i :: rest =>
      match tryPushAt qs i t with
      | some qs' => some qs'
      | none => tryPushList qs rest t

/-- The queue indices `submit` tries, in order: the preferred queue
(`next_victim_ % N`, the fetch-add's old value) followed by the next
`min(N, 3)` indices `(preferred + attempts + 1) % N`. -/
def submitIdxs (s : HPState) : List Nat :=
  (s.nextVictim % s.numThreads) ::
    (List.range (min s.numThreads 3)).map
      fun a => (s.nextVictim % s.numThreads + a + 1) % s.numThreads

/-- `HighPerformancePool::submit` (lines 194-242): refuse when stopping;
round-robin a preferred queue (`next_victim_` fetch-add, mod `N`), try it,
then up to `min(N, 3)` neighbours, then fall back to the overflow queue after
re-checking `stop_` under the overflow lock.  (The `next_victim_` fetch-add
happens before the push attempts in the source; nothing in between reads it,
so recording the increment in the result state is equivalent.) -/
def HPState.submit (s : HPState) (t : HPTask) : Except String HPState :=
  if s.stop then .error "ThreadPool is shutting down"
  else
    match tryPushList s.queues (submitIdxs s) t with
    | some qs' =>
        .ok { s with nextVictim := s.nextVictim + 1, queues := qs',
                     submitted := s.submitted + 1 }
    | none =>
        if s.stop then .error "ThreadPool is shutting down"
        else
          .ok { s with nextVictim := s.nextVictim + 1,
                       overflow := s.overflow ++ [t], submitted := s.submitted + 1 }

def batchPushAttempts (qs : List (WSDeque HPTask)) (n : Nat) (qidx : Nat) (t : HPTask) :
    Nat → Option (List (WSDeque HPTask) × Nat)
  | 0 => none
  | k + 1 =>
      match tryPushAt qs qidx t with
      | some qs' => some (qs', qidx)
      | none => batchPushAttempts qs n ((qidx + 1) % n) t k

def HPState.submitBatchLoop (s : HPState) (qidx : Nat) : List HPTask → HPState
  | [] => s
  | t :: rest =>
      match batchPushAttempts s.queues s.numThreads qidx t s.numThreads with
      | some (qs', qidx') =>
          HPState.submitBatchLoop
            { s with queues := qs', submitted := s.submitted + 1 } qidx' rest
      | none =>
          HPState.submitBatchLoop
            { s with overflow := s.overflow ++ [t], submitted := s.submitted + 1 } qidx rest

/-- `HighPerformancePool::submit_batch` (lines 247-290): refuse when
stopping; otherwise place each task by round-robin over the worker queues
(up to `N` attempts each, the cursor persisting across items), falling back
per item to the overflow queue. -/
def HPState.submitBatch (s : HPState) (ts : List HPTask) : Except String HPState :=
  if s.stop then .error "ThreadPool is shutting down"
  else
    .ok (HPState.submitBatchLoop { s with nextVictim := s.nextVictim + ts.length }
      (s.nextVictim % s.numThreads) ts)

def tryStealFrom (qs : List (WSDeque HPTask)) (wid : Nat) :
    List Nat → Option (HPTask × List (WSDeque HPTask))
  | [] => none
  | v :: rest =>
      if v = wid then tryStealFrom qs wid rest
      else
        match qs.get? v with
        | none => tryStealFrom qs wid rest
        | some q =>
            match q.steal.1 with
            | some t => some (t, qs.set v q.steal.2)
            | none => tryStealFrom qs wid rest

inductive AcquireResult where
  | own (t : HPTask) (qs' : List (WSDeque HPTask))
  | theft (t : HPTask) (qs' : List (WSDeque HPTask))
  | fromOverflow (t : HPTask) (ov' : List HPTask)
  | nothing

/-- One search for work by worker `wid` (lines 519-550): (1) `pop` from the
own queue, (2) a bounded number of `steal` attempts against randomly chosen
victims (the victim draws are the `victims` parameter; draws equal to the
worker's own id find nothing, as `victim_id != worker_id` guards the steal),
(3) the front of the overflow queue. -/
def HPState.findTask (s : HPState) (wid : Nat) (victims : List Nat) : AcquireResult :=
  match s.queues.get? wid with
  | none => .nothing
  | some q =>
      match q.pop.1 with
      | some t => .own t (s.queues.set wid q.pop.2)
      | none =>
          match tryStealFrom s.queues wid victims with
          | some (t, qs') => .theft t qs'
          | none =>
              match s.overflow with
              | t :: rest => .fromOverflow t rest
              | [] => .nothing

/-- The completion half of executing a found task (lines 557-574): the body
runs inside `try { task(); } catch (...) {}`, so whether or not it raises,
`total_task_time_` accumulates the duration, `active_tasks_` is decremented
and `completed_tasks_` incremented, and the loop continues. -/
def HPState.finishRun (s : HPState) (wid : Nat) (t : HPTask) : HPState :=
  { s with
    slots := s.slots.set wid none
    counter := (t.body s.counter).1
    totalTime := s.totalTime + t.dur
    active := s.active - 1
    completed := s.completed + 1 }

/-- Valid victim draws for one steal round: exactly `min(N, 4)` draws (line
527), each from `uniform_int_distribution(0, N-1)` (line 513). -/
def ValidVictims (s : HPState) (victims : List Nat) : Prop :=
  (∀ v ∈ victims, v < s.numThreads) ∧ victims.length = min s.numThreads 4

/-- The pool's interleaved small-step semantics.  `P` constrains which tasks
the environment may submit (instantiated with `isIncTask` for the
shared-counter scenario, and with `fun _ => True` in general). -/
inductive HPStep (P : HPTask → Prop) : HPState → HPState → Prop
  | submit {s s' : HPState} {t : HPTask} :
      P t → s.submit t = .ok s' → HPStep P s s'
  | submitBatch {s s' : HPState} {ts : List HPTask} :
      (∀ t ∈ ts, P t) → s.submitBatch ts = .ok s' → HPStep P s s'
  | acquireOwn {s : HPState} {wid : Nat} {victims : List Nat} {t : HPTask}
      {qs' : List (WSDeque HPTask)} :
      wid < s.numThreads →
      s.slots.get? wid = some none →
      s.exited.get? wid = some false →
      ValidVictims s victims →
      s.findTask wid victims = .own t qs' →
      HPStep P s { s with queues := qs', slots := s.slots.set wid (some t),
                          active := s.active + 1 }
  | acquireSteal {s : HPState} {wid : Nat} {victims : List Nat} {t : HPTask}
      {qs' : List (WSDeque HPTask)} :
      wid < s.numThreads →
      s.slots.get? wid = some none →
      s.exited.get? wid = some false →
      ValidVictims s victims →
      s.findTask wid victims = .theft t qs' →
      HPStep P s { s with queues := qs', slots := s.slots.set wid (some t),
                          active := s.active + 1, stolen := s.stolen + 1 }
  | acquireOverflow {s : HPState} {wid : Nat} {victims : List Nat} {t : HPTask}
      {ov' : List HPTask} :
      wid < s.numThreads →
      s.slots.get? wid = some none →
      s.exited.get? wid = some false →
      ValidVictims s victims →
      s.findTask wid victims = .fromOverflow t ov' →
      HPStep P s { s with overflow := ov', slots := s.slots.set wid (some t),
                          active := s.active + 1 }
  | finish {s : HPState} {wid : Nat} {t : HPTask} :
      wid < s.numThreads →
      s.slots.get? wid = some (some t) →
      HPStep P s (s.finishRun wid t)
  | exit {s : HPState} {wid : Nat} {victims : List Nat} :
      wid < s.numThreads →
      s.slots.get? wid = some none →
      s.exited.get? wid = some false →
      ValidVictims s victims →
      s.findTask wid victims = .nothing →
      s.stop = true →
      HPStep P s { s with exited := s.exited.set wid true }
  | shutdown {s : HPState} :
      HPStep P s { s with stop := true }

/-- States reachable from a freshly constructed pool. -/
inductive HPReach (P : HPTask → Prop) : HPState → Prop
  | init (n : Nat) : HPReach P (HPState.mkInit n)
  | step {s s' : HPState} : HPReach P s → HPStep P s s' → HPReach P s'

/-- `pending_tasks()` (lines 332-343): the sum of the per-worker queue sizes
plus the overflow queue length. -/
def HPState.pending (s : HPState) : Nat :=
  (s.queues.map fun q => q.top - q.bottom).sum + s.overflow.length

/-- Number of tasks currently held by a worker between dequeue and the
completed-count increment. -/
def HPState.inflight (s : HPState) : Nat :=
  s.slots.countP fun o => o.isSome

/-- Tasks currently anywhere in the pool: in the per-worker buffers, in the
overflow queue, or held by a worker mid-execution. -/
def HPState.tasksInSystem (s : HPState) : List HPTask :=
  (s.queues.map WSDeque.content).flatten ++ s.overflow ++ s.slots.reduceOption

/-! ### The pool invariant -/

structure HPInv (s : HPState) : Prop where
  hql : s.queues.length = s.numThreads
  hsl : s.slots.length = s.numThreads
  hel : s.exited.length = s.numThreads
  hn : 0 < s.numThreads
  hqi : ∀ q ∈ s.queues, q.Inv
  hact : s.active = s.inflight
  hcons : s.submitted = s.pending + s.active + s.completed
  hstolen : s.stolen ≤ s.completed + s.active
  hex : ∀ i, s.exited.get? i = some true →
    s.stop = true ∧ (∀ q, s.queues.get? i = some q → q.top ≤ q.bottom) ∧
      s.overflow = []

/-! ## Single-queue pools: ThreadPool (thread_pool.hpp lines 879-1140) and
FastThreadPool (lines 598-868)

Both share one FIFO queue, a stop flag and the same counters; FastThreadPool
additionally accumulates task execution time.  ThreadPool has no
`total_task_time_` member, so its worker step leaves that field untouched. -/

structure TPState where
  tasks : List HPTask
  stop : Bool
  active : Nat
  completed : Nat
  totalTime : Nat
  counter : Nat

/-- `ThreadPool::submit` (lines 915-938): under the queue lock, throw when
stopping, otherwise enqueue at the back. -/
def TPState.submit (s : TPState) (t : HPTask) : Except String TPState :=
  if s.stop then .error "ThreadPool is shutting down"
  else .ok { s with tasks := s.tasks ++ [t] }

/-- `FastThreadPool::submit` (lines 636-657). -/
def TPState.fastSubmit (s : TPState) (t : HPTask) : Except String TPState :=
  if s.stop then .error "FastThreadPool is shutting down"
  else .ok { s with tasks := s.tasks ++ [t] }

/-- `FastThreadPool::submit_batch` (lines 662-687): one stop check under the
lock, then all tasks are enqueued in order. -/
def TPState.fastSubmitBatch (s : TPState) (ts : List HPTask) : Except String TPState :=
  if s.stop then .error "FastThreadPool is shutting down"
  else .ok { s with tasks := s.tasks ++ ts }

/-- Net effect of `HighPerformancePool::submit` on the pool state: the new
state on success, the unchanged state when the call throws. -/
def HPState.submitEffect (s : HPState) (t : HPTask) : HPState :=
  match s.submit t with
  | .ok s' => s'
  | .error _ => s

def TPState.submitEffect (s : TPState) (t : HPTask) : TPState :=
  match s.submit t with
  | .ok s' => s'
  | .error _ => s

inductive WorkerOutcome where
  | exited
  | ran (s' : TPState)
  | blocked

/-- One iteration of `ThreadPool::worker_function` (lines 1101-1139): wait for
`stop_ || !tasks_.empty()`; return when stopping with an empty queue;
otherwise pop the front task, run it under try/catch, and increment
`completed_tasks_` whether or not the body raised. -/
def TPState.workerStep (s : TPState) : WorkerOutcome :=
  match s.tasks with
  | [] => if s.stop then .exited else .blocked
  | t :: rest =>
      .ran { s with tasks := rest, completed := s.completed + 1,
                    counter := (t.body s.counter).1 }

/-- One iteration of `FastThreadPool::worker_function` (lines 813-866): a
bounded `wait_for` on the same predicate; return when stopping with an empty
queue; otherwise pop and run the front task under try/catch, accumulating its
duration and incrementing `completed_tasks_`. -/
def TPState.fastWorkerStep (s : TPState) : WorkerOutcome :=
  match s.tasks with
  | [] => if s.stop then .exited else .blocked
  | t :: rest =>
      .ran { s with tasks := rest, completed := s.completed + 1,
                    totalTime := s.totalTime + t.dur,
                    counter := (t.body s.counter).1 }

/-- The shutdown-relevant observation of a worker-step outcome: whether the
loop exited, kept waiting, or ran a task — and in the latter case the
remaining queue, the completed count and the shared counter (the execution
statistics that only some variants maintain are not part of it). -/
def WorkerOutcome.obs : WorkerOutcome → Option (Option (List HPTask × Nat × Nat))
  | .exited => some none
  | .blocked => none
  | .ran s => some (some (s.tasks, s.completed, s.counter))

/-! ### Concrete executions used as witnesses -/

def hpDemoSubmit (s : HPState) (t : HPTask) : HPState :=
  match s.submit t with
  | .ok s' => s'
  | .error _ => s

def hpDemoAcquireOwn (s : HPState) (wid : Nat) (victims : List Nat) : HPState :=
  match s.findTask wid victims with
  | .own t qs' =>
      { s with queues := qs', slots := s.slots.set wid (some t),
               active := s.active + 1 }
  | _ => s

def hpDemoAcquireTheft (s : HPState) (wid : Nat) (victims : List Nat) : HPState :=
  match s.findTask wid victims with
  | .theft t qs' =>
      { s with queues := qs', slots := s.slots.set wid (some t),
               active := s.active + 1, stolen := s.stolen + 1 }
  | _ => s

def hpDemoFinish (s : HPState) (wid : Nat) : HPState :=
  match s.slots.get? wid with
  | some (some t) => s.finishRun wid t
  | _ => s

/-- Submit one increment task to a one-worker pool, let the worker take it
from its own buffer and finish it: a fully drained run. -/
def hpDemoFinal : HPState :=
  hpDemoFinish (hpDemoAcquireOwn (hpDemoSubmit (HPState.mkInit 1) incTask) 0
    (List.replicate 1 0)) 0

/-- Submit one task to a two-worker pool, then let worker 1 steal it from
worker 0's buffer: now `stolen_tasks = 1` while `completed_tasks = 0`. -/
def hpStealDemo : HPState :=
  hpDemoAcquireTheft (hpDemoSubmit (HPState.mkInit 2) incTask) 1 [0, 0]

/-- For the shared-counter scenario: every task in the system is the
increment task, and the counter equals the completed count. -/
def HPIncInv (s : HPState) : Prop :=
  (∀ t ∈ s.tasksInSystem, isIncTask t) ∧ s.counter = s.completed

/-! ## Scheduler (scheduled_pool.hpp lines 19-328)

One timer thread owns a time-ordered multimap of entries keyed by `next_run`
(time points are modelled as `Nat`); each entry shares a cancel flag with its
`ScheduledTaskHandle`.  The cancel-flag store maps entry ids to the flag's
current value.  Wrappers submitted to the execution pool are recorded in
FIFO order; `poolStopped` models the owned pool having begun shutdown, in
which case `pool_.submit` throws and the scheduler's `catch (...)` swallows
the error. -/

structure SchedEntry where
  id : Nat
  next_run : Nat
  interval : Nat
  taskBody : Nat → Nat
  periodic : Bool

structure SchedWrapper where
  flagId : Nat
  body : Nat → Nat

structure SchedState where
  tasksQ : List (Nat × SchedEntry)
  flags : Nat → Bool
  poolQ : List SchedWrapper
  poolStopped : Bool
  stop : Bool
  nextId : Nat

/-- `std::multimap::insert` into the key-sorted entry list: a new entry goes
after all entries with the same or smaller key. -/
def insertByKey (k : Nat) (e : SchedEntry) :
    List (Nat × SchedEntry) → List (Nat × SchedEntry)
  | [] => [(k, e)]
  | (k2, e2) :: rest =>
      if k < k2 then (k, e) :: (k2, e2) :: rest
      else (k2, e2) :: insertByKey k e rest

/-- `ScheduledThreadPoolT::schedule_at` (lines 119-138): allocate an id,
insert a one-shot entry keyed by the time point. -/
def SchedState.scheduleAt (s : SchedState) (tp : Nat) (task : Nat → Nat) :
    SchedState :=
  { s with nextId := s.nextId + 1
           tasksQ := insertByKey tp ⟨s.nextId, tp, 0, task, false⟩ s.tasksQ }

/-- `ScheduledThreadPoolT::schedule_periodic_after` (lines 161-180): first
run at `now + initial_delay`, stored interval, periodic flag set. -/
def SchedState.schedulePeriodicAfter (s : SchedState) (now delay interval : Nat)
    (task : Nat → Nat) : SchedState :=
  { s with nextId := s.nextId + 1
           tasksQ := insertByKey (now + delay)
             ⟨s.nextId, now + delay, interval, task, true⟩ s.tasksQ }

/-- `ScheduledTaskHandle::cancel` (lines 26-29): store `true` into the shared
atomic flag. -/
def SchedState.cancel (s : SchedState) (tid : Nat) : SchedState :=
  { s with flags := fun i => if i = tid then true else s.flags i }

inductive SchedOutcome where
  | exitLoop
  | blocked
  | stepped (s' : SchedState)

/-- One iteration of `ScheduledThreadPoolT::scheduler_loop` (lines 256-326)
observed at time `now`: wait when there is nothing to do (exiting if asked to
stop), sleep while the earliest entry's deadline is in the future; for a due
entry: erase it, drop it if its cancel flag is set, otherwise submit the
double-checking wrapper to the pool (a pool mid-shutdown throws; the `catch`
swallows it and nothing is submitted or reinserted), and if the entry is
periodic and still uncancelled reinsert it with `next_run += interval`. -/
def SchedState.schedulerStep (s : SchedState) (now : Nat) : SchedOutcome :=
  match s.tasksQ with
  | [] => if s.stop then .exitLoop else .blocked
  | (k, e) :: rest =>
      if now < k then
        (if s.stop then .exitLoop else .blocked)
      else if s.flags e.id then
        .stepped { s with tasksQ := rest }
      else if s.poolStopped then
        .stepped { s with tasksQ := rest }
      else if e.periodic && !(s.flags e.id) then
        .stepped { s with tasksQ := insertByKey (e.next_run + e.interval)
                            { e with next_run := e.next_run + e.interval } rest
                          poolQ := s.poolQ ++ [⟨e.id, e.taskBody⟩] }
      else
        .stepped { s with tasksQ := rest
                          poolQ := s.poolQ ++ [⟨e.id, e.taskBody⟩] }

/-- The wrapper handed to the pool (lines 308-313): immediately before
invoking the task body it re-reads the shared cancel flag and skips the body
when it is set.  Returns the new environment and whether the body ran. -/
def execWrapper (flags : Nat → Bool) (w : SchedWrapper) (env : Nat) :
    Nat × Bool :=
  if flags w.flagId then (env, false) else (w.body env, true)

/-- The state a fire-and-reinsert step produces: the due entry is removed,
its double-checking wrapper is appended to the pool, and the entry is
reinserted keyed by `next_run + interval`. -/
def SchedState.fireReinsert (s : SchedState) (e : SchedEntry)
    (rest : List (Nat × SchedEntry)) : SchedState :=
  { s with tasksQ := insertByKey (e.next_run + e.interval)
             { e with next_run := e.next_run + e.interval } rest
           poolQ := s.poolQ ++ [⟨e.id, e.taskBody⟩] }

theorem WSDeque.capacity_applyOp (q : WSDeque α) (op : DqOp α) :
    (q.applyOp op).capacity = q.capacity := by
  cases op <;>
    simp only [WSDeque.applyOp, WSDeque.push, WSDeque.pop, WSDeque.steal] <;>
    split <;> rfl

theorem WSDeque.capacity_run (q : WSDeque α) (ops : List (DqOp α)) :
    (q.run ops).capacity = q.capacity := by
  induction ops generalizing q with
  | nil => rfl
  | cons op rest ih =>
      simpa [WSDeque.run, List.foldl_cons] using
        (ih (q.applyOp op)).trans (q.capacity_applyOp op)

theorem WSDeque.inv_applyOp {q : WSDeque α} (h : q.Inv) (op : DqOp α) :
    (q.applyOp op).Inv := by
  obtain ⟨h1, h2⟩ := h
  cases op with
  | push x =>
      simp only [WSDeque.applyOp, WSDeque.push]
      split
      · exact ⟨h1, h2⟩
      · next hfull => refine ⟨?_, ?_⟩ <;> dsimp [WSDeque.Inv] <;> omega
  | pop =>
      simp only [WSDeque.applyOp, WSDeque.pop]
      split
      · exact ⟨h1, h2⟩
      · next hne => refine ⟨?_, ?_⟩ <;> dsimp [WSDeque.Inv] <;> omega
  | steal =>
      simp only [WSDeque.applyOp, WSDeque.steal]
      split
      · exact ⟨h1, h2⟩
      · next hne => refine ⟨?_, ?_⟩ <;> dsimp [WSDeque.Inv] <;> omega

theorem WSDeque.inv_run {q : WSDeque α} (h : q.Inv) (ops : List (DqOp α)) :
    (q.run ops).Inv := by
  induction ops generalizing q with
  | nil => exact h
  | cons op rest ih => exact ih (q.inv_applyOp h op)

theorem WSDeque.inv_mkEmpty (d : α) (cap : Nat) : (WSDeque.mkEmpty d cap).Inv :=
  ⟨Nat.le_refl 0, by simp [WSDeque.mkEmpty]⟩

theorem Nat.mod_ne_of_gap {c a b : Nat} (h1 : a < b) (h2 : b - a < c) :
    a % c ≠ b % c := by
  intro heq
  have hdvd : c ∣ b - a := (Nat.modEq_iff_dvd' (Nat.le_of_lt h1)).mp heq
  have := Nat.le_of_dvd (by omega) hdvd
  omega

theorem WSDeque.content_length (q : WSDeque α) :
    q.content.length = q.top - q.bottom := by
  simp [WSDeque.content]

/-- A successful `push` (one with room) appends the new item at the `top` end
of the logical content. -/
theorem WSDeque.push_content {q : WSDeque α} (hInv : q.Inv) (x : α)
    (hroom : q.top - q.bottom < q.capacity) :
    (q.push x).1 = true ∧ (q.push x).2.content = q.content ++ [x] := by
  obtain ⟨h1, _⟩ := hInv
  have hguard : ¬ q.capacity ≤ q.top - q.bottom := by omega
  refine ⟨by simp [WSDeque.push, hguard], ?_⟩
  simp only [WSDeque.push, hguard, if_false]
  show (List.range (q.top + 1 - q.bottom)).map _ = _
  have hn : q.top + 1 - q.bottom = (q.top - q.bottom) + 1 := by omega
  rw [hn, List.range_succ, List.map_append]
  congr 1
  · apply List.map_congr_left
    intro i hi
    have hi' : i < q.top - q.bottom := List.mem_range.mp hi
    have hne : (q.bottom + i) % q.capacity ≠ q.top % q.capacity :=
      Nat.mod_ne_of_gap (by omega) (by omega)
    simp [hne]
  · have : q.bottom + (q.top - q.bottom) = q.top := by omega
    simp [this]

/-- A full `push` fails and leaves the deque untouched. -/
theorem WSDeque.push_full {q : WSDeque α} (x : α)
    (hfull : q.capacity ≤ q.top - q.bottom) :
    (q.push x).1 = false ∧ (q.push x).2 = q := by
  simp [WSDeque.push, hfull]

/-- `pop` removes from the same end as `push`: it returns the most recently
pushed still-present item (the last of the content) and drops it. -/
theorem WSDeque.pop_content {q : WSDeque α} (hInv : q.Inv) :
    q.pop.1 = q.content.getLast? ∧ q.pop.2.content = q.content.dropLast := by
  obtain ⟨h1, _⟩ := hInv
  by_cases hle : q.top ≤ q.bottom
  · have hz : q.top - q.bottom = 0 := by omega
    simp [WSDeque.pop, hle, WSDeque.content, hz]
  · have hn : q.top - q.bottom = (q.top - q.bottom - 1) + 1 := by omega
    have hc : q.content =
        ((List.range (q.top - q.bottom - 1)).map
          fun i => q.buf ((q.bottom + i) % q.capacity)) ++
        [q.buf ((q.top - 1) % q.capacity)] := by
      show (List.range (q.top - q.bottom)).map _ = _
      rw [hn, List.range_succ, List.map_append]
      congr 1
      have : q.bottom + (q.top - q.bottom - 1) = q.top - 1 := by omega
      simp [this]
    constructor
    · rw [hc]
      simp [WSDeque.pop, hle]
    · rw [hc, List.dropLast_concat]
      simp only [WSDeque.pop, hle, if_false]
      show (List.range (q.top - 1 - q.bottom)).map _ = _
      have : q.top - 1 - q.bottom = q.top - q.bottom - 1 := by omega
      rw [this]

/-- `steal` removes from the opposite end: it returns the oldest still-present
item (the head of the content) and drops it. -/
theorem WSDeque.steal_content (q : WSDeque α) :
    q.steal.1 = q.content.head? ∧ q.steal.2.content = q.content.tail := by
  by_cases hle : q.top ≤ q.bottom
  · have hz : q.top - q.bottom = 0 := by omega
    simp [WSDeque.steal, hle, WSDeque.content, hz]
  · have hn : q.top - q.bottom = (q.top - q.bottom - 1) + 1 := by omega
    have hc : q.content =
        q.buf (q.bottom % q.capacity) ::
        ((List.range (q.top - q.bottom - 1)).map
          fun i => q.buf ((q.bottom + 1 + i) % q.capacity)) := by
      show (List.range (q.top - q.bottom)).map _ = _
      rw [hn, List.range_succ_eq_map, List.map_cons, List.map_map]
      refine List.cons_eq_cons.mpr ⟨by simp, ?_⟩
      apply List.map_congr_left
      intro i _
      show q.buf ((q.bottom + (i + 1)) % q.capacity) = _
      have : q.bottom + (i + 1) = q.bottom + 1 + i := by omega
      rw [this]
    constructor
    · rw [hc]
      simp [WSDeque.steal, hle]
    · rw [hc]
      simp only [WSDeque.steal, hle, if_false, List.tail_cons]
      show (List.range (q.top - (q.bottom + 1))).map _ = _
      have : q.top - (q.bottom + 1) = q.top - q.bottom - 1 := by omega
      rw [this]

theorem List.eq_cons_head_tail {l : List α} {x : α} (h : l.head? = some x) :
    l = x :: l.tail := by
  cases l with
  | nil => simp at h
  | cons a t => simp_all

/-- One traced operation preserves: the deque invariant, the accounting
equation `delivered + content = accepted` (as multisets), and the fact that
`accepted` only grows by the pushed value. -/
theorem DqTrace.applyOp_spec (s : DqTrace α) (op : DqOp α)
    (hInv : s.dq.Inv)
    (hms : (s.delivered : Multiset α) + ↑s.dq.content = ↑s.accepted) :
    ((s.applyOp op).dq.Inv
    ∧ ((s.applyOp op).delivered : Multiset α) + ↑(s.applyOp op).dq.content =
        ↑(s.applyOp op).accepted)
    ∧ ((s.applyOp op).accepted = s.accepted
      ∨ ∃ x, op = .push x ∧ (s.applyOp op).accepted = s.accepted ++ [x]) := by
  have hInv' : (s.dq.applyOp op).Inv := WSDeque.inv_applyOp hInv op
  cases op with
  | push x =>
      by_cases hroom : s.dq.top - s.dq.bottom < s.dq.capacity
      · obtain ⟨hok, hcon⟩ := WSDeque.push_content hInv x hroom
        refine ⟨⟨hInv', ?_⟩, Or.inr ⟨x, rfl, ?_⟩⟩
        · show (s.delivered : Multiset α) + ↑(s.dq.push x).2.content =
            ↑(if (s.dq.push x).1 then s.accepted ++ [x] else s.accepted)
          rw [hcon, hok, if_pos rfl, ← Multiset.coe_add, ← Multiset.coe_add, ← hms]
          push_cast
          exact (add_assoc _ _ _).symm
        · show (if (s.dq.push x).1 then s.accepted ++ [x] else s.accepted) = _
          rw [hok, if_pos rfl]
      · obtain ⟨hok, heq⟩ := WSDeque.push_full (q := s.dq) x (by omega)
        refine ⟨⟨hInv', ?_⟩, Or.inl ?_⟩
        · show (s.delivered : Multiset α) + ↑(s.dq.push x).2.content =
            ↑(if (s.dq.push x).1 then s.accepted ++ [x] else s.accepted)
          rw [heq, hok, if_neg (by simp), hms]
        · show (if (s.dq.push x).1 then s.accepted ++ [x] else s.accepted) = _
          rw [hok, if_neg (by simp)]
  | pop =>
      obtain ⟨hfst, hcon⟩ := WSDeque.pop_content hInv
      refine ⟨⟨hInv', ?_⟩, Or.inl rfl⟩
      show ((match s.dq.pop.1 with
              | some x => s.delivered ++ [x]
              | none => s.delivered : List α) : Multiset α) +
          ↑s.dq.pop.2.content = ↑s.accepted
      cases hl : s.dq.content.getLast? with
      | none =>
          have hnil : s.dq.content = [] := by
            cases hc : s.dq.content with
            | nil => rfl
            | cons a t => rw [hc] at hl; simp [List.getLast?_concat] at hl
          rw [hfst, hl, hcon, hnil]
          simpa [hnil] using hms
      | some x =>
          have hsplit : s.dq.content.dropLast ++ [x] = s.dq.content :=
            List.dropLast_append_getLast? x hl
          have hc2 : (s.dq.content : Multiset α) = ↑s.dq.content.dropLast + {x} := by
            rw [← Multiset.coe_singleton, Multiset.coe_add, hsplit]
          rw [hfst, hl, hcon, ← hms, hc2, ← Multiset.coe_add]
          rw [Multiset.coe_singleton, add_assoc,
            add_comm ({x} : Multiset α) (↑s.dq.content.dropLast : Multiset α)]
  | steal =>
      obtain ⟨hfst, hcon⟩ := WSDeque.steal_content s.dq
      refine ⟨⟨hInv', ?_⟩, Or.inl rfl⟩
      show ((match s.dq.steal.1 with
              | some x => s.delivered ++ [x]
              | none => s.delivered : List α) : Multiset α) +
          ↑s.dq.steal.2.content = ↑s.accepted
      cases hl : s.dq.content.head? with
      | none =>
          have hnil : s.dq.content = [] := by
            cases hc : s.dq.content with
            | nil => rfl
            | cons a t => rw [hc] at hl; simp at hl
          rw [hfst, hl, hcon, hnil]
          simpa [hnil] using hms
      | some x =>
          have hsplit : s.dq.content = x :: s.dq.content.tail :=
            List.eq_cons_head_tail hl
          rw [hfst, hl, hcon, ← hms]
          conv_rhs => rw [hsplit]
          rw [← Multiset.cons_coe, ← Multiset.coe_add, Multiset.coe_singleton,
            add_assoc, Multiset.singleton_add]

theorem DqTrace.run_spec (ops : List (DqOp α)) (s : DqTrace α)
    (hInv : s.dq.Inv)
    (hms : (s.delivered : Multiset α) + ↑s.dq.content = ↑s.accepted) :
    (s.run ops).dq.Inv
    ∧ (((s.run ops).delivered : Multiset α) + ↑(s.run ops).dq.content =
        ↑(s.run ops).accepted)
    ∧ ∀ x ∈ (s.run ops).accepted, x ∈ s.accepted ∨ x ∈ pushedVals ops := by
  induction ops generalizing s with
  | nil => exact ⟨hInv, hms, fun x hx => Or.inl hx⟩
  | cons op rest ih =>
      obtain ⟨⟨hInv', hms'⟩, hacc⟩ := s.applyOp_spec op hInv hms
      have hrun : s.run (op :: rest) = (s.applyOp op).run rest := rfl
      obtain ⟨h1, h2, h3⟩ := ih (s.applyOp op) hInv' hms'
      refine ⟨by rwa [hrun], by rwa [hrun], ?_⟩
      intro x hx
      rw [hrun] at hx
      rcases h3 x hx with h | h
      · rcases hacc with heq | ⟨y, hop, heq⟩
        · rw [heq] at h
          exact Or.inl h
        · rw [heq] at h
          rcases List.mem_append.mp h with h' | h'
          · exact Or.inl h'
          · subst hop
            simp only [List.mem_singleton] at h'
            subst h'
            exact Or.inr (List.mem_cons_self _ _)
      · right
        cases op with
        | push y => exact List.mem_cons_of_mem _ h
        | pop => exact h
        | steal => exact h

theorem DqTrace.run_accepted_nodup (ops : List (DqOp α)) (s : DqTrace α)
    (hacc : s.accepted.Nodup)
    (hfresh : ∀ x ∈ pushedVals ops, x ∉ s.accepted)
    (hnd : (pushedVals ops).Nodup) :
    (s.run ops).accepted.Nodup := by
  induction ops generalizing s with
  | nil => exact hacc
  | cons op rest ih =>
      have hrun : s.run (op :: rest) = (s.applyOp op).run rest := rfl
      rw [hrun]
      cases op with
      | push x =>
          have hx : x ∉ s.accepted := hfresh x (List.mem_cons_self _ _)
          have hnd' := List.nodup_cons.mp hnd
          apply ih
          · show (if (s.dq.push x).1 then s.accepted ++ [x] else s.accepted).Nodup
            split
            · simp [List.nodup_append, hacc, hx]
            · exact hacc
          · intro y hy
            show y ∉ (if (s.dq.push x).1 then s.accepted ++ [x] else s.accepted)
            have hy1 : y ∉ s.accepted := hfresh y (List.mem_cons_of_mem _ hy)
            have hy2 : y ≠ x := fun h => hnd'.1 (h ▸ hy)
            split
            · simp [hy1, hy2]
            · exact hy1
          · exact hnd'.2
      | pop => exact ih _ hacc hfresh hnd
      | steal => exact ih _ hacc hfresh hnd

/-- **C2.** TaskBuffer capacity invariant: for every sequence of
push/pop/steal operations on one `WorkStealingDeque` of capacity `C`, the
occupied count `top - bottom` stays between `0` and `C` inclusive; `push`
returns `false` when the buffer holds `C` items, `pop` returns `false` when
`top <= bottom`, `steal` returns `false` when `bottom >= top`, each leaving
the state (hence the count) unchanged and so in range. -/
theorem wsdeque_capacity_invariant (d : α) (cap : Nat) (ops : List (DqOp α))
    (q : WSDeque α) (hq : q = (WSDeque.mkEmpty d cap).run ops) :
    (q.bottom ≤ q.top ∧ q.top - q.bottom ≤ cap)
    ∧ (∀ x : α, q.top - q.bottom = cap → (q.push x).1 = false ∧ (q.push x).2 = q)
    ∧ (q.top ≤ q.bottom → q.pop.1 = none ∧ q.pop.2 = q)
    ∧ (q.bottom ≥ q.top → q.steal.1 = none ∧ q.steal.2 = q) := by
  have hcap : q.capacity = cap := by
    rw [hq, WSDeque.capacity_run]
    rfl
  have hInv : q.Inv := by
    rw [hq]
    exact WSDeque.inv_run (WSDeque.inv_mkEmpty d cap) ops
  refine ⟨⟨hInv.1, by have := hInv.2; omega⟩, ?_, ?_, ?_⟩
  · intro x hx
    exact WSDeque.push_full x (by omega)
  · intro h
    simp [WSDeque.pop, h]
  · intro h
    simp [WSDeque.steal, show q.top ≤ q.bottom from h]

theorem wsdeque_capacity_invariant_witness :
    ((((WSDeque.mkEmpty 0 1).run [DqOp.push 5]).push 6).1 = false)
    ∧ ((((WSDeque.mkEmpty 0 1).run [DqOp.push 5]).push 6).2 =
        (WSDeque.mkEmpty 0 1).run [DqOp.push 5]) :=
  (wsdeque_capacity_invariant 0 1 [DqOp.push 5] _ rfl).2.1 6 (by decide)

/-- **C4.** Buffer ordering: a successful `push` appends at the `top` end of
the content; `pop` removes from that same end, returning the most recently
pushed still-present task (LIFO for the owner); `steal` removes from the
opposite end, returning the oldest still-present task, so successive steals
see FIFO order starting from the owner's oldest pushed task. -/
theorem wsdeque_lifo_fifo_order (d : α) (cap : Nat) (ops : List (DqOp α))
    (q : WSDeque α) (hq : q = (WSDeque.mkEmpty d cap).run ops) :
    (∀ x : α, q.top - q.bottom < cap →
      (q.push x).1 = true ∧ (q.push x).2.content = q.content ++ [x])
    ∧ (q.pop.1 = q.content.getLast? ∧ q.pop.2.content = q.content.dropLast)
    ∧ (q.steal.1 = q.content.head? ∧ q.steal.2.content = q.content.tail) := by
  have hcap : q.capacity = cap := by
    rw [hq, WSDeque.capacity_run]
    rfl
  have hInv : q.Inv := by
    rw [hq]
    exact WSDeque.inv_run (WSDeque.inv_mkEmpty d cap) ops
  exact ⟨fun x hx => WSDeque.push_content hInv x (by omega),
    WSDeque.pop_content hInv, WSDeque.steal_content q⟩

theorem wsdeque_lifo_fifo_order_witness :
    ((WSDeque.mkEmpty 0 4).run [DqOp.push 1, DqOp.push 2, DqOp.push 3]).pop.1 = some 3
    ∧ ((WSDeque.mkEmpty 0 4).run
        [DqOp.push 1, DqOp.push 2, DqOp.push 3]).steal.1 = some 1 := by
  have h := wsdeque_lifo_fifo_order 0 4 [DqOp.push 1, DqOp.push 2, DqOp.push 3] _ rfl
  exact ⟨by rw [h.2.1.1]; rfl, by rw [h.2.2.1]; rfl⟩

/-- **C3.** At-most-once delivery: in any history over one deque whose pushed
tasks are pairwise distinct, the list of tasks handed out by successful `pop`
and `steal` calls has no duplicate (no task is ever delivered to two
callers), every delivered task was pushed, the accepted-but-undelivered tasks
are exactly the current content (so none is lost), and whenever the buffer is
non-empty both `pop` and `steal` succeed and deliver a task. -/
theorem wsdeque_at_most_once_delivery (d : α) (cap : Nat) (ops : List (DqOp α))
    (hnd : (pushedVals ops).Nodup)
    (s : DqTrace α) (hs : s = (DqTrace.mk0 d cap).run ops) :
    s.delivered.Nodup
    ∧ (∀ x ∈ s.delivered, x ∈ pushedVals ops)
    ∧ ((s.delivered : Multiset α) + ↑s.dq.content = ↑s.accepted)
    ∧ (s.dq.content ≠ [] → s.dq.pop.1.isSome ∧ s.dq.steal.1.isSome) := by
  subst hs
  have hms0 : (((DqTrace.mk0 d cap).delivered : List α) : Multiset α) +
      ↑(DqTrace.mk0 d cap).dq.content = ↑(DqTrace.mk0 d cap).accepted := by
    simp [DqTrace.mk0, WSDeque.content, WSDeque.mkEmpty]
  obtain ⟨hInv, hms, haccmem⟩ :=
    DqTrace.run_spec ops (DqTrace.mk0 d cap) (WSDeque.inv_mkEmpty d cap) hms0
  have haccnd : ((DqTrace.mk0 d cap).run ops).accepted.Nodup :=
    DqTrace.run_accepted_nodup ops _ List.nodup_nil
      (by intro x _; simp [DqTrace.mk0]) hnd
  have hle : ((((DqTrace.mk0 d cap).run ops).delivered : List α) : Multiset α) ≤
      ↑((DqTrace.mk0 d cap).run ops).accepted :=
    Multiset.le_iff_exists_add.mpr ⟨_, hms.symm⟩
  refine ⟨?_, ?_, hms, ?_⟩
  · exact Multiset.coe_nodup.mp
      (Multiset.nodup_of_le hle (Multiset.coe_nodup.mpr haccnd))
  · intro x hx
    have hxacc : x ∈ ((DqTrace.mk0 d cap).run ops).accepted := by
      have : x ∈ (↑((DqTrace.mk0 d cap).run ops).accepted : Multiset α) :=
        Multiset.mem_of_le hle (by exact_mod_cast hx)
      exact_mod_cast this
    rcases haccmem x hxacc with h | h
    · simp [DqTrace.mk0] at h
    · exact h
  · intro hne
    have hlen : 0 < ((DqTrace.mk0 d cap).run ops).dq.content.length :=
      List.length_pos.mpr hne
    rw [WSDeque.content_length] at hlen
    have hbt : ¬ ((DqTrace.mk0 d cap).run ops).dq.top ≤
        ((DqTrace.mk0 d cap).run ops).dq.bottom := by omega
    constructor
    · simp [WSDeque.pop, hbt]
    · simp [WSDeque.steal, hbt]

theorem wsdeque_at_most_once_delivery_witness :
    ((DqTrace.mk0 0 4).run
      [DqOp.push 1, DqOp.push 2, DqOp.steal, DqOp.pop]).delivered.Nodup
    ∧ ∀ x ∈ ((DqTrace.mk0 0 4).run
        [DqOp.push 1, DqOp.push 2, DqOp.steal, DqOp.pop]).delivered,
        x ∈ pushedVals [DqOp.push 1, DqOp.push 2, DqOp.steal, DqOp.pop] :=
  ⟨(wsdeque_at_most_once_delivery 0 4
      [DqOp.push 1, DqOp.push 2, DqOp.steal, DqOp.pop] (by decide) _ rfl).1,
    (wsdeque_at_most_once_delivery 0 4
      [DqOp.push 1, DqOp.push 2, DqOp.steal, DqOp.pop] (by decide) _ rfl).2.1⟩

/-! ### Bookkeeping lemmas for the pool model -/

theorem sum_map_set {β : Type} (f : β → Nat) (l : List β) (i : Nat) (x y : β)
    (hget : l.get? i = some x) :
    ((l.set i y).map f).sum + f x = (l.map f).sum + f y := by
  induction l generalizing i with
  | nil => simp at hget
  | cons a l ih =>
      cases i with
      | zero =>
          rw [List.get?_cons_zero] at hget
          cases hget
          simp only [List.set_cons_zero, List.map_cons, List.sum_cons]
          omega
      | succ i =>
          rw [List.get?_cons_succ] at hget
          have := ih i hget
          simp only [List.set_cons_succ, List.map_cons, List.sum_cons]
          omega

theorem countP_set {β : Type} (p : β → Bool) (l : List β) (i : Nat) (x y : β)
    (hget : l.get? i = some x) :
    (l.set i y).countP p + (if p x then 1 else 0) =
      l.countP p + (if p y then 1 else 0) := by
  induction l generalizing i with
  | nil => simp at hget
  | cons a l ih =>
      cases i with
      | zero =>
          rw [List.get?_cons_zero] at hget
          cases hget
          simp only [List.set_cons_zero, List.countP_cons]
          omega
      | succ i =>
          rw [List.get?_cons_succ] at hget
          have := ih i hget
          simp only [List.set_cons_succ, List.countP_cons]
          omega

theorem mem_flatten_map_content_set {qs : List (WSDeque HPTask)} {i : Nat}
    {q' : WSDeque HPTask} {x : HPTask}
    (hx : x ∈ ((qs.set i q').map WSDeque.content).flatten) :
    x ∈ (qs.map WSDeque.content).flatten ∨ x ∈ q'.content := by
  rcases List.mem_flatten.mp hx with ⟨l, hl, hxl⟩
  rcases List.mem_map.mp hl with ⟨q, hq, rfl⟩
  rcases List.mem_or_eq_of_mem_set hq with h | h
  · exact Or.inl (List.mem_flatten.mpr ⟨q.content, List.mem_map.mpr ⟨q, h, rfl⟩, hxl⟩)
  · exact Or.inr (h ▸ hxl)

theorem mem_flatten_map_content_get {qs : List (WSDeque HPTask)} {i : Nat}
    {q : WSDeque HPTask} {x : HPTask}
    (hget : qs.get? i = some q) (hx : x ∈ q.content) :
    x ∈ (qs.map WSDeque.content).flatten :=
  List.mem_flatten.mpr ⟨q.content,
    List.mem_map.mpr ⟨q, List.get?_mem hget, rfl⟩, hx⟩

theorem mem_reduceOption_set {l : List (Option HPTask)} {i : Nat}
    {o : Option HPTask} {x : HPTask}
    (hx : x ∈ (l.set i o).reduceOption) :
    x ∈ l.reduceOption ∨ o = some x := by
  have h1 : some x ∈ l.set i o := List.reduceOption_mem_iff.mp hx
  rcases List.mem_or_eq_of_mem_set h1 with h | h
  · exact Or.inl (List.reduceOption_mem_iff.mpr h)
  · exact Or.inr h.symm

/-! ### Success and failure facts for the deque operations -/

theorem WSDeque.pop_none {q : WSDeque α} (h : q.pop.1 = none) :
    q.top ≤ q.bottom := by
  by_contra h'
  simp [WSDeque.pop, h'] at h

theorem WSDeque.pop_some {q : WSDeque α} {t : α} (h : q.pop.1 = some t) :
    q.bottom < q.top ∧ q.pop.2.top = q.top - 1 ∧ q.pop.2.bottom = q.bottom ∧
      q.pop.2.capacity = q.capacity := by
  by_cases hle : q.top ≤ q.bottom
  · simp [WSDeque.pop, hle] at h
  · refine ⟨by omega, ?_, ?_, ?_⟩ <;> simp [WSDeque.pop, hle]

theorem WSDeque.steal_some {q : WSDeque α} {t : α} (h : q.steal.1 = some t) :
    q.bottom < q.top ∧ q.steal.2.top = q.top ∧ q.steal.2.bottom = q.bottom + 1 ∧
      q.steal.2.capacity = q.capacity := by
  by_cases hle : q.top ≤ q.bottom
  · simp [WSDeque.steal, hle] at h
  · refine ⟨by omega, ?_, ?_, ?_⟩ <;> simp [WSDeque.steal, hle]

theorem WSDeque.push_true {q : WSDeque α} {x : α} (h : (q.push x).1 = true) :
    q.top - q.bottom < q.capacity ∧ (q.push x).2.top = q.top + 1 ∧
      (q.push x).2.bottom = q.bottom ∧ (q.push x).2.capacity = q.capacity := by
  by_cases hfull : q.capacity ≤ q.top - q.bottom
  · simp [WSDeque.push, hfull] at h
  · refine ⟨by omega, ?_, ?_, ?_⟩ <;> simp [WSDeque.push, hfull]

theorem WSDeque.pop_mem_content {q : WSDeque α} {t : α} (hInv : q.Inv)
    (h : q.pop.1 = some t) : t ∈ q.content := by
  have := (WSDeque.pop_content hInv).1
  rw [this] at h
  exact List.mem_of_getLast?_eq_some h

theorem WSDeque.steal_mem_content {q : WSDeque α} {t : α}
    (h : q.steal.1 = some t) : t ∈ q.content := by
  have := (WSDeque.steal_content q).1
  rw [this] at h
  exact List.mem_of_mem_head? h

/-! ### Inversion lemmas for the pool's task-placement and task-finding code -/

theorem tryPushAt_spec {qs : List (WSDeque HPTask)} {idx : Nat} {t : HPTask}
    {qs' : List (WSDeque HPTask)} (h : tryPushAt qs idx t = some qs') :
    ∃ q, qs.get? idx = some q ∧ (q.push t).1 = true ∧
      qs' = qs.set idx (q.push t).2 := by
  unfold tryPushAt at h
  cases hg : qs.get? idx with
  | none => rw [hg] at h; simp at h
  | some q =>
      rw [hg] at h
      dsimp only at h
      split at h
      · next hok =>
          refine ⟨q, rfl, hok, ?_⟩
          injection h with h
          exact h.symm
      · simp at h

theorem tryPushList_spec {qs : List (WSDeque HPTask)} {idxs : List Nat}
    {t : HPTask} {qs' : List (WSDeque HPTask)}
    (h : tryPushList qs idxs t = some qs') :
    ∃ i q, qs.get? i = some q ∧ (q.push t).1 = true ∧
      qs' = qs.set i (q.push t).2 := by
  induction idxs with
  | nil => simp [tryPushList] at h
  | cons i rest ih =>
      unfold tryPushList at h
      cases ha : tryPushAt qs i t with
      | some qs2 =>
          rw [ha] at h
          dsimp only at h
          injection h with h
          subst h
          obtain ⟨q, h1, h2, h3⟩ := tryPushAt_spec ha
          exact ⟨i, q, h1, h2, h3⟩
      | none =>
          rw [ha] at h
          exact ih h

theorem batchPushAttempts_spec {qs : List (WSDeque HPTask)} {n qidx : Nat}
    {t : HPTask} {k : Nat} {qs' : List (WSDeque HPTask)} {qidx' : Nat}
    (h : batchPushAttempts qs n qidx t k = some (qs', qidx')) :
    ∃ i q, qs.get? i = some q ∧ (q.push t).1 = true ∧
      qs' = qs.set i (q.push t).2 := by
  induction k generalizing qidx with
  | zero => simp [batchPushAttempts] at h
  | succ k ih =>
      unfold batchPushAttempts at h
      cases ha : tryPushAt qs qidx t with
      | some qs2 =>
          rw [ha] at h
          dsimp only at h
          injection h with h
          injection h with h1 h2
          subst h1
          obtain ⟨q, hq1, hq2, hq3⟩ := tryPushAt_spec ha
          exact ⟨qidx, q, hq1, hq2, hq3⟩
      | none =>
          rw [ha] at h
          exact ih h

theorem tryStealFrom_spec {qs : List (WSDeque HPTask)} {wid : Nat}
    {victims : List Nat} {t : HPTask} {qs' : List (WSDeque HPTask)}
    (h : tryStealFrom qs wid victims = some (t, qs')) :
    ∃ v q, qs.get? v = some q ∧ q.steal.1 = some t ∧
      qs' = qs.set v q.steal.2 := by
  induction victims with
  | nil => simp [tryStealFrom] at h
  | cons v rest ih =>
      unfold tryStealFrom at h
      split at h
      · exact ih h
      · cases hg : qs.get? v with
        | none => rw [hg] at h; exact ih h
        | some q =>
            rw [hg] at h
            dsimp only at h
            cases hs : q.steal.1 with
            | some t2 =>
                rw [hs] at h
                dsimp only at h
                injection h with h
                injection h with h1 h2
                subst h1
                exact ⟨v, q, hg, hs, h2.symm⟩
            | none =>
                rw [hs] at h
                exact ih h

theorem findTask_own_spec {s : HPState} {wid : Nat} {victims : List Nat}
    {t : HPTask} {qs' : List (WSDeque HPTask)}
    (h : s.findTask wid victims = .own t qs') :
    ∃ q, s.queues.get? wid = some q ∧ q.pop.1 = some t ∧
      qs' = s.queues.set wid q.pop.2 := by
  unfold HPState.findTask at h
  cases hg : s.queues.get? wid with
  | none => rw [hg] at h; simp at h
  | some q =>
      rw [hg] at h
      dsimp only at h
      cases hp : q.pop.1 with
      | some t2 =>
          rw [hp] at h
          dsimp only at h
          cases h
          exact ⟨q, rfl, hp, rfl⟩
      | none =>
          rw [hp] at h
          dsimp only at h
          split at h
          · exact absurd h (by simp)
          · split at h <;> simp at h

theorem findTask_theft_spec {s : HPState} {wid : Nat} {victims : List Nat}
    {t : HPTask} {qs' : List (WSDeque HPTask)}
    (h : s.findTask wid victims = .theft t qs') :
    ∃ v q, s.queues.get? v = some q ∧ q.steal.1 = some t ∧
      qs' = s.queues.set v q.steal.2 := by
  unfold HPState.findTask at h
  cases hg : s.queues.get? wid with
  | none => rw [hg] at h; simp at h
  | some q =>
      rw [hg] at h
      dsimp only at h
      cases hp : q.pop.1 with
      | some t2 => rw [hp] at h; simp at h
      | none =>
          rw [hp] at h
          dsimp only at h
          cases hst : tryStealFrom s.queues wid victims with
          | some r =>
              rw [hst] at h
              dsimp only at h
              cases r with
              | mk t2 qs2 =>
                  cases h
                  exact tryStealFrom_spec hst
          | none =>
              rw [hst] at h
              dsimp only at h
              split at h <;> simp at h

theorem findTask_overflow_spec {s : HPState} {wid : Nat} {victims : List Nat}
    {t : HPTask} {ov' : List HPTask}
    (h : s.findTask wid victims = .fromOverflow t ov') :
    s.overflow = t :: ov' := by
  unfold HPState.findTask at h
  cases hg : s.queues.get? wid with
  | none => rw [hg] at h; simp at h
  | some q =>
      rw [hg] at h
      dsimp only at h
      cases hp : q.pop.1 with
      | some t2 => rw [hp] at h; simp at h
      | none =>
          rw [hp] at h
          dsimp only at h
          cases hst : tryStealFrom s.queues wid victims with
          | some r => rw [hst] at h; cases r; simp at h
          | none =>
              rw [hst] at h
              dsimp only at h
              cases ho : s.overflow with
              | nil => rw [ho] at h; simp at h
              | cons t2 rest =>
                  rw [ho] at h
                  dsimp only at h
                  cases h
                  rfl

theorem findTask_nothing_spec {s : HPState} {wid : Nat} {victims : List Nat}
    (h : s.findTask wid victims = .nothing) (hwid : wid < s.queues.length) :
    (∀ q, s.queues.get? wid = some q → q.pop.1 = none) ∧ s.overflow = [] := by
  unfold HPState.findTask at h
  cases hg : s.queues.get? wid with
  | none =>
      have := List.get?_eq_none.mp hg
      omega
  | some q =>
      rw [hg] at h
      dsimp only at h
      cases hp : q.pop.1 with
      | some t2 => rw [hp] at h; simp at h
      | none =>
          rw [hp] at h
          dsimp only at h
          cases hst : tryStealFrom s.queues wid victims with
          | some r => rw [hst] at h; cases r; simp at h
          | none =>
              rw [hst] at h
              dsimp only at h
              cases ho : s.overflow with
              | cons t2 rest => rw [ho] at h; simp at h
              | nil =>
                  refine ⟨?_, rfl⟩
                  intro q2 hq2
                  injection hq2 with hq2
                  subst hq2
                  exact hp

theorem hpInv_mkInit (n : Nat) : HPInv (HPState.mkInit n) := by
  constructor
  · simp [HPState.mkInit]
  · simp [HPState.mkInit]
  · simp [HPState.mkInit]
  · show 0 < (HPState.mkInit n).numThreads
    unfold HPState.mkInit
    dsimp only
    split <;> omega
  · intro q hq
    rw [List.eq_of_mem_replicate hq]
    exact WSDeque.inv_mkEmpty _ _
  · show 0 = _
    symm
    unfold HPState.inflight
    rw [List.countP_eq_zero]
    intro o ho
    rw [List.eq_of_mem_replicate ho]
    simp
  · show 0 = _ + 0 + 0
    unfold HPState.pending HPState.mkInit
    simp [WSDeque.mkEmpty]
  · exact Nat.le_refl 0
  · intro i hi
    have hmem : true ∈ (HPState.mkInit n).exited := List.get?_mem hi
    have : true = false := List.eq_of_mem_replicate hmem
    simp at this

/-- Effect of a successful push into one of the worker queues on the
bookkeeping quantities. -/
theorem queuePush_effect {qs : List (WSDeque HPTask)} {i : Nat}
    {q : WSDeque HPTask} {t : HPTask}
    (hget : qs.get? i = some q) (hok : (q.push t).1 = true)
    (hqi : ∀ q2 ∈ qs, q2.Inv) :
    (∀ q2 ∈ qs.set i (q.push t).2, q2.Inv)
    ∧ ((qs.set i (q.push t).2).map fun q2 => q2.top - q2.bottom).sum =
        ((qs.map fun q2 => q2.top - q2.bottom).sum) + 1
    ∧ (∀ x ∈ ((qs.set i (q.push t).2).map WSDeque.content).flatten,
        x ∈ (qs.map WSDeque.content).flatten ∨ x = t) := by
  have hqInv : q.Inv := hqi q (List.get?_mem hget)
  have hp := WSDeque.push_true hok
  have hInv' : (q.push t).2.Inv := WSDeque.inv_applyOp hqInv (.push t)
  have hsum : ((qs.set i (q.push t).2).map fun q2 => q2.top - q2.bottom).sum +
      (q.top - q.bottom) =
      ((qs.map fun q2 => q2.top - q2.bottom).sum) +
      ((q.push t).2.top - (q.push t).2.bottom) := by
    simpa using sum_map_set (fun q2 => q2.top - q2.bottom) qs i q (q.push t).2 hget
  have hcontent := (WSDeque.push_content hqInv t hp.1).2
  refine ⟨?_, ?_, ?_⟩
  · intro q2 hq2
    rcases List.mem_or_eq_of_mem_set hq2 with h | h
    · exact hqi q2 h
    · exact h ▸ hInv'
  · have h1 : (q.push t).2.top - (q.push t).2.bottom = (q.top - q.bottom) + 1 := by
      obtain ⟨-, e1, e2, -⟩ := hp
      have := hqInv.1
      omega
    omega
  · intro x hx
    rcases mem_flatten_map_content_set hx with h | h
    · exact Or.inl h
    · rw [hcontent] at h
      rcases List.mem_append.mp h with h | h
      · exact Or.inl (mem_flatten_map_content_get hget h)
      · exact Or.inr (List.mem_singleton.mp h)

/-- `submit` preserves the invariant, increments `submitted` and the pending
count by one, adds (at most) the submitted task to the system, and touches no
execution statistics. -/
theorem HPInv.submit_preserved {s s' : HPState} {t : HPTask} (hI : HPInv s)
    (h : s.submit t = .ok s') :
    HPInv s'
    ∧ s'.submitted = s.submitted + 1
    ∧ s'.completed = s.completed ∧ s'.stolen = s.stolen ∧ s'.active = s.active
    ∧ s'.numThreads = s.numThreads ∧ s'.counter = s.counter
    ∧ s'.slots = s.slots ∧ s'.exited = s.exited ∧ s'.stop = s.stop
    ∧ (∀ x ∈ s'.tasksInSystem, x ∈ s.tasksInSystem ∨ x = t) := by
  unfold HPState.submit at h
  split at h
  · exact absurd h (by simp)
  · next hstop =>
      have hstopf : s.stop = false := by
        revert hstop
        cases s.stop <;> simp
      cases hpl : tryPushList s.queues (submitIdxs s) t with
      | some qs' =>
          rw [hpl] at h
          dsimp only at h
          injection h with h
          subst h
          obtain ⟨i, q, hget, hok, hqs'⟩ := tryPushList_spec hpl
          subst hqs'
          obtain ⟨hqi', hsum, hmem⟩ := queuePush_effect hget hok hI.hqi
          refine ⟨⟨?_, hI.hsl, hI.hel, hI.hn, hqi', hI.hact, ?_, hI.hstolen, ?_⟩,
            rfl, rfl, rfl, rfl, rfl, rfl, rfl, rfl, rfl, ?_⟩
          · simpa using hI.hql
          · show s.submitted + 1 = _ + _ + _
            have := hI.hcons
            unfold HPState.pending at this ⊢
            dsimp only
            omega
          · intro j hj
            have := hI.hex j hj
            rw [hstopf] at this
            exact absurd this.1 (by simp)
          · intro x hx
            unfold HPState.tasksInSystem at hx ⊢
            dsimp only at hx
            rcases List.mem_append.mp hx with hx | hx
            · rcases List.mem_append.mp hx with hx | hx
              · rcases hmem x hx with h | h
                · exact Or.inl (List.mem_append.mpr (Or.inl (List.mem_append.mpr (Or.inl h))))
                · exact Or.inr h
              · exact Or.inl (List.mem_append.mpr (Or.inl (List.mem_append.mpr (Or.inr hx))))
            · exact Or.inl (List.mem_append.mpr (Or.inr hx))
      | none =>
          rw [hpl] at h
          dsimp only at h
          injection h with h
          subst h
          refine ⟨⟨by simpa using hI.hql, hI.hsl, hI.hel, hI.hn, hI.hqi, hI.hact,
            ?_, hI.hstolen, ?_⟩,
            rfl, rfl, rfl, rfl, rfl, rfl, rfl, rfl, rfl, ?_⟩
          · show s.submitted + 1 = _ + _ + _
            have := hI.hcons
            unfold HPState.pending at this ⊢
            dsimp only
            rw [List.length_append]
            simp only [List.length_singleton]
            omega
          · intro j hj
            have := hI.hex j hj
            rw [hstopf] at this
            exact absurd this.1 (by simp)
          · intro x hx
            unfold HPState.tasksInSystem at hx ⊢
            dsimp only at hx
            rcases List.mem_append.mp hx with hx | hx
            · rcases List.mem_append.mp hx with hx | hx
              · exact Or.inl (List.mem_append.mpr (Or.inl (List.mem_append.mpr (Or.inl hx))))
              · rcases List.mem_append.mp hx with hx | hx
                · exact Or.inl (List.mem_append.mpr (Or.inl (List.mem_append.mpr (Or.inr hx))))
                · exact Or.inr (List.mem_singleton.mp hx)
            · exact Or.inl (List.mem_append.mpr (Or.inr hx))

/-- Effect of replacing one queue with a smaller one (a `pop` or a `steal`
took one task out of it). -/
theorem queueRemove_effect {qs : List (WSDeque HPTask)} {i : Nat}
    {q q' : WSDeque HPTask}
    (hget : qs.get? i = some q)
    (hqi : ∀ q2 ∈ qs, q2.Inv)
    (hInv' : q'.Inv)
    (hsize : q'.top - q'.bottom + 1 = q.top - q.bottom)
    (hcontent : ∀ x ∈ q'.content, x ∈ q.content) :
    (∀ q2 ∈ qs.set i q', q2.Inv)
    ∧ ((qs.set i q').map fun q2 => q2.top - q2.bottom).sum + 1 =
        (qs.map fun q2 => q2.top - q2.bottom).sum
    ∧ (∀ x ∈ ((qs.set i q').map WSDeque.content).flatten,
        x ∈ (qs.map WSDeque.content).flatten) := by
  have hsum : ((qs.set i q').map fun q2 => q2.top - q2.bottom).sum +
      (q.top - q.bottom) =
      ((qs.map fun q2 => q2.top - q2.bottom).sum) + (q'.top - q'.bottom) := by
    simpa using sum_map_set (fun q2 => q2.top - q2.bottom) qs i q q' hget
  refine ⟨?_, by omega, ?_⟩
  · intro q2 hq2
    rcases List.mem_or_eq_of_mem_set hq2 with h | h
    · exact hqi q2 h
    · exact h ▸ hInv'
  · intro x hx
    rcases mem_flatten_map_content_set hx with h | h
    · exact h
    · exact mem_flatten_map_content_get hget (hcontent x h)

theorem HPInv.queuePushUpdate {s : HPState} {i : Nat} {q : WSDeque HPTask}
    {t : HPTask} (hI : HPInv s) (hstop : s.stop = false)
    (hget : s.queues.get? i = some q) (hok : (q.push t).1 = true) (nv : Nat) :
    HPInv { s with nextVictim := nv
                   queues := s.queues.set i (q.push t).2
                   submitted := s.submitted + 1 } := by
  obtain ⟨hqi', hsum, _⟩ := queuePush_effect hget hok hI.hqi
  refine ⟨by simpa using hI.hql, hI.hsl, hI.hel, hI.hn, hqi', hI.hact, ?_, hI.hstolen, ?_⟩
  · show s.submitted + 1 = _ + _ + _
    have := hI.hcons
    unfold HPState.pending at this ⊢
    dsimp only
    omega
  · intro j hj
    have := hI.hex j hj
    rw [hstop] at this
    exact absurd this.1 (by simp)

theorem HPInv.overflowAppendUpdate {s : HPState} {t : HPTask} (hI : HPInv s)
    (hstop : s.stop = false) (nv : Nat) :
    HPInv { s with nextVictim := nv
                   overflow := s.overflow ++ [t]
                   submitted := s.submitted + 1 } := by
  refine ⟨hI.hql, hI.hsl, hI.hel, hI.hn, hI.hqi, hI.hact, ?_, hI.hstolen, ?_⟩
  · show s.submitted + 1 = _ + _ + _
    have := hI.hcons
    unfold HPState.pending at this ⊢
    dsimp only
    rw [List.length_append]
    simp only [List.length_singleton]
    omega
  · intro j hj
    have := hI.hex j hj
    rw [hstop] at this
    exact absurd this.1 (by simp)

theorem submitBatchLoop_preserved (ts : List HPTask) (s : HPState) (qidx : Nat)
    (hI : HPInv s) (hstop : s.stop = false) :
    HPInv (s.submitBatchLoop qidx ts)
    ∧ (s.submitBatchLoop qidx ts).submitted = s.submitted + ts.length
    ∧ (s.submitBatchLoop qidx ts).completed = s.completed
    ∧ (s.submitBatchLoop qidx ts).stolen = s.stolen
    ∧ (s.submitBatchLoop qidx ts).active = s.active
    ∧ (s.submitBatchLoop qidx ts).counter = s.counter
    ∧ (s.submitBatchLoop qidx ts).slots = s.slots
    ∧ (s.submitBatchLoop qidx ts).exited = s.exited
    ∧ (s.submitBatchLoop qidx ts).stop = s.stop
    ∧ (∀ x ∈ (s.submitBatchLoop qidx ts).tasksInSystem,
        x ∈ s.tasksInSystem ∨ x ∈ ts) := by
  induction ts generalizing s qidx with
  | nil =>
      exact ⟨hI, rfl, rfl, rfl, rfl, rfl, rfl, rfl, rfl, fun x hx => Or.inl hx⟩
  | cons t rest ih =>
      rw [HPState.submitBatchLoop]
      cases hb : batchPushAttempts s.queues s.numThreads qidx t s.numThreads with
      | some r =>
          cases r with
          | mk qs2 qidx2 =>
              dsimp only
              obtain ⟨i, q, hget, hok, hqs'⟩ := batchPushAttempts_spec hb
              subst hqs'
              have hI2 : HPInv { s with queues := s.queues.set i (q.push t).2
                                        submitted := s.submitted + 1 } :=
                HPInv.queuePushUpdate hI hstop hget hok s.nextVictim
              obtain ⟨a1, a2, a3, a4, a5, a6, a7, a8, a9, a10⟩ :=
                ih { s with queues := s.queues.set i (q.push t).2
                            submitted := s.submitted + 1 } qidx2 hI2 hstop
              refine ⟨a1, by rw [a2]; show s.submitted + 1 + rest.length = s.submitted + (rest.length + 1); omega, a3, a4, a5, a6, a7, a8, a9, ?_⟩
              intro x hx
              rcases a10 x hx with h | h
              · obtain ⟨-, -, hmem⟩ := queuePush_effect hget hok hI.hqi
                unfold HPState.tasksInSystem at h ⊢
                dsimp only at h
                rcases List.mem_append.mp h with h | h
                · rcases List.mem_append.mp h with h | h
                  · rcases hmem x h with h2 | h2
                    · exact Or.inl (List.mem_append.mpr (Or.inl (List.mem_append.mpr (Or.inl h2))))
                    · exact Or.inr (h2 ▸ List.mem_cons_self t rest)
                  · exact Or.inl (List.mem_append.mpr (Or.inl (List.mem_append.mpr (Or.inr h))))
                · exact Or.inl (List.mem_append.mpr (Or.inr h))
              · exact Or.inr (List.mem_cons_of_mem t h)
      | none =>
          dsimp only
          have hI2 : HPInv { s with overflow := s.overflow ++ [t]
                                    submitted := s.submitted + 1 } :=
            HPInv.overflowAppendUpdate hI hstop (t := t) s.nextVictim
          obtain ⟨a1, a2, a3, a4, a5, a6, a7, a8, a9, a10⟩ :=
            ih { s with overflow := s.overflow ++ [t]
                        submitted := s.submitted + 1 } qidx hI2 hstop
          refine ⟨a1, by rw [a2]; show s.submitted + 1 + rest.length = s.submitted + (rest.length + 1); omega, a3, a4, a5, a6, a7, a8, a9, ?_⟩
          intro x hx
          rcases a10 x hx with h | h
          · unfold HPState.tasksInSystem at h ⊢
            dsimp only at h
            rcases List.mem_append.mp h with h | h
            · rcases List.mem_append.mp h with h | h
              · exact Or.inl (List.mem_append.mpr (Or.inl (List.mem_append.mpr (Or.inl h))))
              · rcases List.mem_append.mp h with h | h
                · exact Or.inl (List.mem_append.mpr (Or.inl (List.mem_append.mpr (Or.inr h))))
                · exact Or.inr (List.mem_singleton.mp h ▸ List.mem_cons_self t rest)
            · exact Or.inl (List.mem_append.mpr (Or.inr h))
          · exact Or.inr (List.mem_cons_of_mem t h)

theorem mem_tasksInSystem {s : HPState} {x : HPTask} :
    x ∈ s.tasksInSystem ↔
      x ∈ (s.queues.map WSDeque.content).flatten ∨ x ∈ s.overflow ∨
        x ∈ s.slots.reduceOption := by
  unfold HPState.tasksInSystem
  simp [List.mem_append, or_assoc]

theorem HPInv.withNextVictim {s : HPState} (hI : HPInv s) (nv : Nat) :
    HPInv { s with nextVictim := nv } :=
  ⟨hI.hql, hI.hsl, hI.hel, hI.hn, hI.hqi, hI.hact, hI.hcons, hI.hstolen, hI.hex⟩

/-- Every pool transition preserves the pool invariant. -/
theorem HPInv.step_preserved {P : HPTask → Prop} {s s' : HPState}
    (hI : HPInv s) (hstep : HPStep P s s') : HPInv s' := by
  cases hstep with
  | submit hP h => exact (hI.submit_preserved h).1
  | @submitBatch _ ts hP h =>
      unfold HPState.submitBatch at h
      split at h
      · exact absurd h (by simp)
      · next hstop =>
          injection h with h
          subst h
          have hstopf : s.stop = false := by
            revert hstop
            cases s.stop <;> simp
          exact (submitBatchLoop_preserved ts _ _
            (hI.withNextVictim (s.nextVictim + ts.length)) hstopf).1
  | @acquireOwn wid victims t qs' hwid hslot hexw hvv hfind =>
      obtain ⟨q, hget, hpop, hqs'⟩ := findTask_own_spec hfind
      subst hqs'
      have hqInv := hI.hqi q (List.get?_mem hget)
      obtain ⟨hbt, htop, hbot, -⟩ := WSDeque.pop_some hpop
      obtain ⟨hqi', hsum, -⟩ := queueRemove_effect hget hI.hqi
        (show q.pop.2.Inv from WSDeque.inv_applyOp hqInv .pop) (by omega)
        (fun x hx => by
          rw [(WSDeque.pop_content hqInv).2] at hx
          exact (List.dropLast_sublist _).subset hx)
      have hcount : (s.slots.set wid (some t)).countP (fun o => o.isSome) =
          s.slots.countP (fun o => o.isSome) + 1 := by
        have := countP_set (fun o => o.isSome) s.slots wid none (some t) hslot
        simpa using this
      refine ⟨by simpa using hI.hql, by simpa using hI.hsl, hI.hel, hI.hn, hqi',
        ?_, ?_, ?_, ?_⟩
      · show s.active + 1 = _
        have hao := hI.hact
        unfold HPState.inflight at hao ⊢
        dsimp only
        omega
      · show s.submitted = _ + _ + _
        have := hI.hcons
        unfold HPState.pending at this ⊢
        dsimp only
        omega
      · show s.stolen ≤ s.completed + (s.active + 1)
        have := hI.hstolen
        omega
      · intro j hj
        obtain ⟨hst, hqe, hov⟩ := hI.hex j hj
        refine ⟨hst, ?_, hov⟩
        intro q2 hq2
        by_cases hji : wid = j
        · subst hji
          exact absurd (hqe q hget) (by omega)
        · rw [List.get?_set_ne _ _ hji] at hq2
          exact hqe q2 hq2
  | @acquireSteal wid victims t qs' hwid hslot hexw hvv hfind =>
      obtain ⟨v, q, hget, hsteal, hqs'⟩ := findTask_theft_spec hfind
      subst hqs'
      have hqInv := hI.hqi q (List.get?_mem hget)
      obtain ⟨hbt, htop, hbot, -⟩ := WSDeque.steal_some hsteal
      obtain ⟨hqi', hsum, -⟩ := queueRemove_effect hget hI.hqi
        (show q.steal.2.Inv from WSDeque.inv_applyOp hqInv .steal) (by omega)
        (fun x hx => by
          rw [(WSDeque.steal_content q).2] at hx
          exact (List.tail_sublist _).subset hx)
      have hcount : (s.slots.set wid (some t)).countP (fun o => o.isSome) =
          s.slots.countP (fun o => o.isSome) + 1 := by
        have := countP_set (fun o => o.isSome) s.slots wid none (some t) hslot
        simpa using this
      refine ⟨by simpa using hI.hql, by simpa using hI.hsl, hI.hel, hI.hn, hqi',
        ?_, ?_, ?_, ?_⟩
      · show s.active + 1 = _
        have hao := hI.hact
        unfold HPState.inflight at hao ⊢
        dsimp only
        omega
      · show s.submitted = _ + _ + _
        have := hI.hcons
        unfold HPState.pending at this ⊢
        dsimp only
        omega
      · show s.stolen + 1 ≤ s.completed + (s.active + 1)
        have := hI.hstolen
        omega
      · intro j hj
        obtain ⟨hst, hqe, hov⟩ := hI.hex j hj
        refine ⟨hst, ?_, hov⟩
        intro q2 hq2
        by_cases hji : v = j
        · subst hji
          exact absurd (hqe q hget) (by omega)
        · rw [List.get?_set_ne _ _ hji] at hq2
          exact hqe q2 hq2
  | @acquireOverflow wid victims t ov' hwid hslot hexw hvv hfind =>
      have hov := findTask_overflow_spec hfind
      have hcount : (s.slots.set wid (some t)).countP (fun o => o.isSome) =
          s.slots.countP (fun o => o.isSome) + 1 := by
        have := countP_set (fun o => o.isSome) s.slots wid none (some t) hslot
        simpa using this
      refine ⟨hI.hql, by simpa using hI.hsl, hI.hel, hI.hn, hI.hqi, ?_, ?_, ?_, ?_⟩
      · show s.active + 1 = _
        have hao := hI.hact
        unfold HPState.inflight at hao ⊢
        dsimp only
        omega
      · show s.submitted = _ + _ + _
        have := hI.hcons
        unfold HPState.pending at this ⊢
        dsimp only
        rw [hov] at this
        simp only [List.length_cons] at this
        omega
      · show s.stolen ≤ s.completed + (s.active + 1)
        have := hI.hstolen
        omega
      · intro j hj
        obtain ⟨hst, hqe, hov2⟩ := hI.hex j hj
        rw [hov] at hov2
        exact absurd hov2 (by simp)
  | @finish wid t hwid hslot =>
      have hpos : 0 < s.slots.countP (fun o => o.isSome) :=
        List.countP_pos.mpr ⟨some t, List.get?_mem hslot, by simp⟩
      have hcount : (s.slots.set wid none).countP (fun o => o.isSome) + 1 =
          s.slots.countP (fun o => o.isSome) := by
        have := countP_set (fun o => o.isSome) s.slots wid (some t) none hslot
        simpa using this
      have hasle : s.active = s.inflight := hI.hact
      unfold HPState.inflight at hasle
      unfold HPState.finishRun
      refine ⟨hI.hql, by simpa using hI.hsl, hI.hel, hI.hn, hI.hqi, ?_, ?_, ?_, ?_⟩
      · show s.active - 1 = _
        unfold HPState.inflight
        show _ = (s.slots.set wid none).countP (fun o => o.isSome)
        omega
      · show s.submitted = _ + _ + _
        have := hI.hcons
        unfold HPState.pending at this ⊢
        dsimp only
        omega
      · show s.stolen ≤ s.completed + 1 + (s.active - 1)
        have := hI.hstolen
        omega
      · intro j hj
        exact hI.hex j hj
  | @exit wid victims hwid hslot hexw hvv hfind hstopt =>
      have hnothing := findTask_nothing_spec hfind (by rw [hI.hql]; exact hwid)
      refine ⟨hI.hql, hI.hsl, by simpa using hI.hel, hI.hn, hI.hqi, hI.hact,
        hI.hcons, hI.hstolen, ?_⟩
      intro j hj
      by_cases hji : wid = j
      · subst hji
        refine ⟨hstopt, ?_, hnothing.2⟩
        intro q hq
        exact WSDeque.pop_none (hnothing.1 q hq)
      · rw [List.get?_set_ne _ _ hji] at hj
        exact hI.hex j hj
  | shutdown =>
      refine ⟨hI.hql, hI.hsl, hI.hel, hI.hn, hI.hqi, hI.hact, hI.hcons,
        hI.hstolen, ?_⟩
      intro j hj
      exact ⟨rfl, (hI.hex j hj).2.1, (hI.hex j hj).2.2⟩

/-- The pool invariant holds in every reachable state. -/
theorem hpInv_of_reach {P : HPTask → Prop} {s : HPState} (h : HPReach P s) :
    HPInv s := by
  induction h with
  | init n => exact hpInv_mkInit n
  | step hr hstep ih => exact ih.step_preserved hstep

/-! ### Helper lemmas for the progress argument -/

theorem get?_exists_of_lt {β : Type} {l : List β} {i : Nat} (h : i < l.length) :
    ∃ x, l.get? i = some x := by
  cases hx : l.get? i with
  | none => exact absurd (List.get?_eq_none.mp hx) (by omega)
  | some x => exact ⟨x, rfl⟩

theorem sum_map_pos {β : Type} (f : β → Nat) (l : List β)
    (h : 0 < (l.map f).sum) : ∃ i x, l.get? i = some x ∧ 0 < f x := by
  induction l with
  | nil => simp at h
  | cons a l ih =>
      simp only [List.map_cons, List.sum_cons] at h
      by_cases ha : 0 < f a
      · exact ⟨0, a, rfl, ha⟩
      · have h2 : 0 < (l.map f).sum := by omega
        obtain ⟨i, x, h1, h2⟩ := ih h2
        exact ⟨i + 1, x, by simpa using h1, h2⟩

theorem sum_map_zero_get {β : Type} {f : β → Nat} {l : List β} {i : Nat} {x : β}
    (hs : (l.map f).sum = 0) (h : l.get? i = some x) : f x = 0 := by
  have hmem : f x ∈ l.map f := List.mem_map_of_mem f (List.get?_mem h)
  have := List.single_le_sum (fun (n : Nat) _ => Nat.zero_le n) _ hmem
  omega

theorem tryStealFrom_self (qs : List (WSDeque HPTask)) (wid : Nat) (k : Nat) :
    tryStealFrom qs wid (List.replicate k wid) = none := by
  induction k with
  | zero => rfl
  | succ k ih =>
      rw [List.replicate_succ]
      unfold tryStealFrom
      rw [if_pos rfl]
      exact ih

/-- From any invariant state with work anywhere in the pool, some worker
transition makes strict progress (measured by `2 * pending + active`) without
changing the ghost submission count: tasks keep flowing to completion. -/
theorem hp_progress {P : HPTask → Prop} {s : HPState} (hI : HPInv s)
    (h : 0 < s.pending + s.active) :
    ∃ s', HPStep P s s' ∧ s'.submitted = s.submitted ∧ s'.completed ≥ s.completed ∧
      2 * s'.pending + s'.active < 2 * s.pending + s.active := by
  by_cases hact : 0 < s.active
  · have hin : 0 < s.slots.countP (fun o => o.isSome) := by
      have := hI.hact
      unfold HPState.inflight at this
      omega
    rw [List.countP_pos] at hin
    obtain ⟨o, ho, hosome⟩ := hin
    obtain ⟨t, rfl⟩ : ∃ t, o = some t := by
      cases o with
      | none => simp at hosome
      | some t => exact ⟨t, rfl⟩
    obtain ⟨wid, hwid⟩ := List.get?_of_mem ho
    have hwlt : wid < s.numThreads := by
      rw [← hI.hsl]
      exact (List.get?_eq_some.mp hwid).1
    refine ⟨s.finishRun wid t, HPStep.finish hwlt hwid, rfl, ?_, ?_⟩
    · show s.completed + 1 ≥ s.completed
      omega
    · have hpe : (s.finishRun wid t).pending = s.pending := rfl
      have hae : (s.finishRun wid t).active = s.active - 1 := rfl
      omega
  · have hacteq : s.active = 0 := by omega
    have hallnone : ∀ i o, s.slots.get? i = some o → o = none := by
      have hz : s.slots.countP (fun o => o.isSome) = 0 := by
        have := hI.hact
        unfold HPState.inflight at this
        omega
      intro i o hio
      have h2 := List.countP_eq_zero.mp hz o (List.get?_mem hio)
      cases o with
      | none => rfl
      | some t => simp at h2
    have hpend : 0 < s.pending := by omega
    unfold HPState.pending at hpend
    by_cases hqs : 0 < ((s.queues.map fun q => q.top - q.bottom).sum)
    · obtain ⟨j, q, hget, hqpos0⟩ := sum_map_pos _ _ hqs
      have hqpos : 0 < q.top - q.bottom := hqpos0
      have hjlt : j < s.numThreads := by
        rw [← hI.hql]
        exact (List.get?_eq_some.mp hget).1
      have hqInv := hI.hqi q (List.get?_mem hget)
      have hbt : q.bottom < q.top := by
        have := hqInv.1
        omega
      have hexj : s.exited.get? j = some false := by
        obtain ⟨b, hb⟩ := get?_exists_of_lt (show j < s.exited.length by
          rw [hI.hel]; exact hjlt)
        cases b with
        | false => exact hb
        | true =>
            obtain ⟨-, hqe, -⟩ := hI.hex j hb
            exact absurd (hqe q hget) (by omega)
      have hslotj : s.slots.get? j = some none := by
        obtain ⟨o, hoo⟩ := get?_exists_of_lt (show j < s.slots.length by
          rw [hI.hsl]; exact hjlt)
        rw [hoo, hallnone j o hoo]
      have hpop1 : q.pop.1 = some (q.buf ((q.top - 1) % q.capacity)) := by
        simp [WSDeque.pop, show ¬ q.top ≤ q.bottom by omega]
      have hfind : s.findTask j (List.replicate (min s.numThreads 4) j) =
          .own (q.buf ((q.top - 1) % q.capacity)) (s.queues.set j q.pop.2) := by
        unfold HPState.findTask
        rw [hget]
        dsimp only
        rw [hpop1]
      refine ⟨_, HPStep.acquireOwn hjlt hslotj hexj ⟨?_, ?_⟩ hfind, rfl, ?_, ?_⟩
      · intro v hv
        rw [List.eq_of_mem_replicate hv]
        exact hjlt
      · exact List.length_replicate _ _
      · show s.completed ≥ s.completed
        exact Nat.le_refl _
      · show 2 * ((((s.queues.set j q.pop.2).map fun q2 => q2.top - q2.bottom).sum) +
            s.overflow.length) + (s.active + 1) < _
        obtain ⟨hbt2, htop, hbot, -⟩ := WSDeque.pop_some hpop1
        obtain ⟨-, hsum, -⟩ := queueRemove_effect hget hI.hqi
          (show q.pop.2.Inv from WSDeque.inv_applyOp hqInv .pop) (by omega)
          (fun x hx => by
            rw [(WSDeque.pop_content hqInv).2] at hx
            exact (List.dropLast_sublist _).subset hx)
        unfold HPState.pending
        omega
    · have hsz : ((s.queues.map fun q => q.top - q.bottom).sum) = 0 := by omega
      have hovp : 0 < s.overflow.length := by omega
      obtain ⟨t, rest, hrest⟩ : ∃ t rest, s.overflow = t :: rest := by
        cases ho : s.overflow with
        | nil => rw [ho] at hovp; simp at hovp
        | cons t rest => exact ⟨t, rest, rfl⟩
      have hex0 : s.exited.get? 0 = some false := by
        obtain ⟨b, hb⟩ := get?_exists_of_lt (show 0 < s.exited.length by
          rw [hI.hel]; exact hI.hn)
        cases b with
        | false => exact hb
        | true =>
            have := (hI.hex 0 hb).2.2
            rw [hrest] at this
            simp at this
      have hslot0 : s.slots.get? 0 = some none := by
        obtain ⟨o, hoo⟩ := get?_exists_of_lt (show 0 < s.slots.length by
          rw [hI.hsl]; exact hI.hn)
        rw [hoo, hallnone 0 o hoo]
      obtain ⟨q0, hq0⟩ := get?_exists_of_lt (show 0 < s.queues.length by
        rw [hI.hql]; exact hI.hn)
      have hq0z : q0.top - q0.bottom = 0 :=
        sum_map_zero_get (f := fun q => q.top - q.bottom) hsz hq0
      have hq0Inv := hI.hqi q0 (List.get?_mem hq0)
      have hpop0 : q0.pop.1 = none := by
        simp [WSDeque.pop, show q0.top ≤ q0.bottom by have := hq0Inv.1; omega]
      have hfind : s.findTask 0 (List.replicate (min s.numThreads 4) 0) =
          .fromOverflow t rest := by
        unfold HPState.findTask
        rw [hq0]
        dsimp only
        rw [hpop0]
        dsimp only
        rw [tryStealFrom_self]
        dsimp only
        rw [hrest]
      refine ⟨_, HPStep.acquireOverflow hI.hn hslot0 hex0 ⟨?_, ?_⟩ hfind, rfl, ?_, ?_⟩
      · intro v hv
        rw [List.eq_of_mem_replicate hv]
        exact hI.hn
      · exact List.length_replicate _ _
      · show s.completed ≥ s.completed
        exact Nat.le_refl _
      · show 2 * (((s.queues.map fun q2 => q2.top - q2.bottom).sum) + rest.length) +
            (s.active + 1) < _
        unfold HPState.pending
        rw [hrest]
        simp only [List.length_cons]
        omega

theorem hpIncInv_mkInit (n : Nat) : HPIncInv (HPState.mkInit n) := by
  constructor
  · intro t ht
    rcases mem_tasksInSystem.mp ht with h | h | h
    · rcases List.mem_flatten.mp h with ⟨l, hl, htl⟩
      rcases List.mem_map.mp hl with ⟨q, hq, rfl⟩
      rw [List.eq_of_mem_replicate hq] at htl
      simp [WSDeque.content, WSDeque.mkEmpty] at htl
    · simp [HPState.mkInit] at h
    · have h2 := List.reduceOption_mem_iff.mp h
      exact absurd (List.eq_of_mem_replicate h2) (by simp)
  · rfl

theorem hpIncInv_step {s s' : HPState} (hI : HPInv s) (hInc : HPIncInv s)
    (hstep : HPStep isIncTask s s') : HPIncInv s' := by
  cases hstep with
  | submit hP h =>
      obtain ⟨-, -, hcomp, -, -, -, hctr, -, -, -, hmem⟩ := hI.submit_preserved h
      refine ⟨fun x hx => ?_, by rw [hctr, hcomp]; exact hInc.2⟩
      rcases hmem x hx with h2 | h2
      · exact hInc.1 x h2
      · exact h2 ▸ hP
  | @submitBatch _ ts hP h =>
      unfold HPState.submitBatch at h
      split at h
      · exact absurd h (by simp)
      · next hstop =>
          injection h with h
          subst h
          have hstopf : s.stop = false := by
            revert hstop
            cases s.stop <;> simp
          obtain ⟨-, -, a3, -, -, a6, -, -, -, a10⟩ :=
            submitBatchLoop_preserved ts _ (s.nextVictim % s.numThreads)
              (hI.withNextVictim (s.nextVictim + ts.length)) hstopf
          refine ⟨fun x hx => ?_, by rw [a6, a3]; exact hInc.2⟩
          rcases a10 x hx with h2 | h2
          · exact hInc.1 x h2
          · exact hP x h2
  | @acquireOwn wid victims t qs' hwid hslot hexw hvv hfind =>
      obtain ⟨q, hget, hpop, hqs'⟩ := findTask_own_spec hfind
      subst hqs'
      have hqInv := hI.hqi q (List.get?_mem hget)
      refine ⟨fun x hx => ?_, hInc.2⟩
      rcases mem_tasksInSystem.mp hx with h | h | h
      · rcases mem_flatten_map_content_set h with h2 | h2
        · exact hInc.1 x (mem_tasksInSystem.mpr (Or.inl h2))
        · rw [(WSDeque.pop_content hqInv).2] at h2
          exact hInc.1 x (mem_tasksInSystem.mpr (Or.inl
            (mem_flatten_map_content_get hget ((List.dropLast_sublist _).subset h2))))
      · exact hInc.1 x (mem_tasksInSystem.mpr (Or.inr (Or.inl h)))
      · rcases mem_reduceOption_set h with h2 | h2
        · exact hInc.1 x (mem_tasksInSystem.mpr (Or.inr (Or.inr h2)))
        · injection h2 with h2
          subst h2
          exact hInc.1 t (mem_tasksInSystem.mpr (Or.inl
            (mem_flatten_map_content_get hget (WSDeque.pop_mem_content hqInv hpop))))
  | @acquireSteal wid victims t qs' hwid hslot hexw hvv hfind =>
      obtain ⟨v, q, hget, hsteal, hqs'⟩ := findTask_theft_spec hfind
      subst hqs'
      refine ⟨fun x hx => ?_, hInc.2⟩
      rcases mem_tasksInSystem.mp hx with h | h | h
      · rcases mem_flatten_map_content_set h with h2 | h2
        · exact hInc.1 x (mem_tasksInSystem.mpr (Or.inl h2))
        · rw [(WSDeque.steal_content q).2] at h2
          exact hInc.1 x (mem_tasksInSystem.mpr (Or.inl
            (mem_flatten_map_content_get hget ((List.tail_sublist _).subset h2))))
      · exact hInc.1 x (mem_tasksInSystem.mpr (Or.inr (Or.inl h)))
      · rcases mem_reduceOption_set h with h2 | h2
        · exact hInc.1 x (mem_tasksInSystem.mpr (Or.inr (Or.inr h2)))
        · injection h2 with h2
          subst h2
          exact hInc.1 t (mem_tasksInSystem.mpr (Or.inl
            (mem_flatten_map_content_get hget (WSDeque.steal_mem_content hsteal))))
  | @acquireOverflow wid victims t ov' hwid hslot hexw hvv hfind =>
      have hov := findTask_overflow_spec hfind
      refine ⟨fun x hx => ?_, hInc.2⟩
      rcases mem_tasksInSystem.mp hx with h | h | h
      · exact hInc.1 x (mem_tasksInSystem.mpr (Or.inl h))
      · exact hInc.1 x (mem_tasksInSystem.mpr (Or.inr (Or.inl
          (by rw [hov]; exact List.mem_cons_of_mem t h))))
      · rcases mem_reduceOption_set h with h2 | h2
        · exact hInc.1 x (mem_tasksInSystem.mpr (Or.inr (Or.inr h2)))
        · injection h2 with h2
          subst h2
          exact hInc.1 t (mem_tasksInSystem.mpr (Or.inr (Or.inl
            (by rw [hov]; exact List.mem_cons_self _ _))))
  | @finish wid t hwid hslot =>
      have htin : t ∈ s.tasksInSystem :=
        mem_tasksInSystem.mpr (Or.inr (Or.inr
          (List.reduceOption_mem_iff.mpr (List.get?_mem hslot))))
      have htinc : isIncTask t := hInc.1 t htin
      unfold HPState.finishRun
      constructor
      · intro x hx
        rcases mem_tasksInSystem.mp hx with h | h | h
        · exact hInc.1 x (mem_tasksInSystem.mpr (Or.inl h))
        · exact hInc.1 x (mem_tasksInSystem.mpr (Or.inr (Or.inl h)))
        · rcases mem_reduceOption_set h with h2 | h2
          · exact hInc.1 x (mem_tasksInSystem.mpr (Or.inr (Or.inr h2)))
          · simp at h2
      · show (t.body s.counter).1 = s.completed + 1
        rw [show t = incTask from htinc]
        show s.counter + 1 = s.completed + 1
        rw [hInc.2]
  | @exit wid victims hwid hslot hexw hvv hfind hstopt =>
      exact ⟨fun x hx => hInc.1 x hx, hInc.2⟩
  | shutdown =>
      exact ⟨fun x hx => hInc.1 x hx, hInc.2⟩

theorem hpIncInv_of_reach {s : HPState} (h : HPReach isIncTask s) : HPIncInv s := by
  induction h with
  | init n => exact hpIncInv_mkInit n
  | step hr hstep ih => exact hpIncInv_step (hpInv_of_reach hr) ih hstep

/-- **C1.** No task loss: in a work-stealing pool running any interleaving of
single submissions, one batch submission and worker steps of `N` increment
tasks, (a) whenever the pool is drained — `pending_tasks() == 0` and no task
in flight, the condition on which `wait_for_tasks` returns — the completed
count and the shared counter both equal the number of successfully submitted
tasks (so for 10,000 submitted increment tasks on a 4-worker pool, counter
and `completed_tasks` are both 10,000 after the drain); and (b) while the
pool is not drained some worker step always makes progress towards the
drain, so every submitted task eventually produces exactly one completion. -/
theorem hp_no_task_loss {s : HPState} (hre : HPReach isIncTask s) :
    (s.pending = 0 ∧ s.active = 0 →
      s.completed = s.submitted ∧ s.counter = s.submitted)
    ∧ (0 < s.pending + s.active →
      ∃ s', HPStep isIncTask s s' ∧ s'.submitted = s.submitted ∧
        s'.completed ≥ s.completed ∧
        2 * s'.pending + s'.active < 2 * s.pending + s.active) := by
  have hI := hpInv_of_reach hre
  have hInc := hpIncInv_of_reach hre
  constructor
  · rintro ⟨hp, ha⟩
    have hc := hI.hcons
    rw [hp, ha] at hc
    have hcomp : s.completed = s.submitted := by omega
    exact ⟨hcomp, by rw [hInc.2, hcomp]⟩
  · intro h
    exact hp_progress hI h

theorem hp_no_task_loss_witness :
    hpDemoFinal.pending = 0 ∧ hpDemoFinal.active = 0 ∧ hpDemoFinal.submitted = 1 ∧
      hpDemoFinal.completed = hpDemoFinal.submitted ∧
      hpDemoFinal.counter = hpDemoFinal.submitted := by
  have h1 : HPReach isIncTask (hpDemoSubmit (HPState.mkInit 1) incTask) :=
    HPReach.step (HPReach.init 1) (HPStep.submit rfl rfl)
  have h2 : HPReach isIncTask (hpDemoAcquireOwn
      (hpDemoSubmit (HPState.mkInit 1) incTask) 0 (List.replicate 1 0)) :=
    HPReach.step h1 (@HPStep.acquireOwn isIncTask _ 0 (List.replicate 1 0) _ _
      (by decide) rfl rfl ⟨by decide, by decide⟩ rfl)
  have hreach : HPReach isIncTask hpDemoFinal :=
    HPReach.step h2 (HPStep.finish (by decide) rfl)
  obtain ⟨hc, hcnt⟩ := (hp_no_task_loss hreach).1 ⟨by decide, by decide⟩
  exact ⟨by decide, by decide, by decide, hc, hcnt⟩

/-- **C5.** Submission after shutdown has begun fails immediately: with the
stop flag set, `submit` (and batch submission) on every pool variant returns
the synchronous "pool is shutting down" error, and the pool state — queues,
overflow queue, counters — is left completely unchanged: the task is neither
enqueued anywhere nor silently dropped into execution. -/
theorem submit_after_stop_fails (s : HPState) (st : TPState) (t : HPTask)
    (ts : List HPTask) (hs : s.stop = true) (hst : st.stop = true) :
    s.submit t = .error "ThreadPool is shutting down"
    ∧ s.submitBatch ts = .error "ThreadPool is shutting down"
    ∧ s.submitEffect t = s
    ∧ st.submit t = .error "ThreadPool is shutting down"
    ∧ st.submitEffect t = st
    ∧ st.fastSubmit t = .error "FastThreadPool is shutting down"
    ∧ st.fastSubmitBatch ts = .error "FastThreadPool is shutting down" := by
  refine ⟨?_, ?_, ?_, ?_, ?_, ?_, ?_⟩ <;>
    simp [HPState.submit, HPState.submitBatch, HPState.submitEffect,
      TPState.submit, TPState.submitEffect, TPState.fastSubmit,
      TPState.fastSubmitBatch, hs, hst]

theorem submit_after_stop_fails_witness :
    ({ HPState.mkInit 1 with stop := true } : HPState).submit incTask =
      .error "ThreadPool is shutting down"
    ∧ (⟨[], true, 0, 0, 0, 0⟩ : TPState).submit incTask =
      .error "ThreadPool is shutting down"
    ∧ (⟨[], true, 0, 0, 0, 0⟩ : TPState).fastSubmit incTask =
      .error "FastThreadPool is shutting down" := by
  have h := submit_after_stop_fails { HPState.mkInit 1 with stop := true }
    ⟨[], true, 0, 0, 0, 0⟩ incTask [] rfl rfl
  exact ⟨h.1, h.2.2.2.1, h.2.2.2.2.2.1⟩

/-- **C6.** Task-body failure containment: executing a task whose body raised
is indistinguishable, for the pool, from executing one that succeeded — in
the work-stealing pool the completion bookkeeping increments the completed
count and accumulates the measured duration and the worker is not marked
exited, the resulting state not depending on whether the body raised; and in
both single-queue pools the worker step on a queued task (raising or not)
yields a running continuation (never an exit) with the completed count
incremented, so the worker loop keeps serving tasks. -/
theorem task_failure_containment (s : HPState) (st : TPState) (wid : Nat)
    (eff : Nat → Nat) (dur : Nat) :
    (∀ ok : Bool,
      (s.finishRun wid ⟨fun c => (eff c, ok), dur⟩).completed = s.completed + 1
      ∧ (s.finishRun wid ⟨fun c => (eff c, ok), dur⟩).totalTime = s.totalTime + dur
      ∧ (s.finishRun wid ⟨fun c => (eff c, ok), dur⟩).exited = s.exited)
    ∧ (s.finishRun wid ⟨fun c => (eff c, false), dur⟩ =
        s.finishRun wid ⟨fun c => (eff c, true), dur⟩)
    ∧ (∀ (ok : Bool) (rest : List HPTask),
        st.tasks = ⟨fun c => (eff c, ok), dur⟩ :: rest →
        st.workerStep = .ran { st with tasks := rest,
                                       completed := st.completed + 1,
                                       counter := eff st.counter }
        ∧ st.fastWorkerStep = .ran { st with tasks := rest,
                                             completed := st.completed + 1,
                                             totalTime := st.totalTime + dur,
                                             counter := eff st.counter }) := by
  refine ⟨fun ok => ⟨rfl, rfl, rfl⟩, rfl, ?_⟩
  intro ok rest htasks
  constructor
  · unfold TPState.workerStep
    rw [htasks]
  · unfold TPState.fastWorkerStep
    rw [htasks]

theorem task_failure_containment_witness :
    ((HPState.mkInit 1).finishRun 0 ⟨fun c => (c + 7, false), 5⟩).completed =
      (HPState.mkInit 1).completed + 1
    ∧ (⟨[⟨fun c => (c + 7, false), 5⟩], false, 0, 0, 0, 0⟩ : TPState).workerStep =
      .ran ⟨[], false, 0, 1, 0, 7⟩ := by
  have h := task_failure_containment (HPState.mkInit 1)
    ⟨[⟨fun c => (c + 7, false), 5⟩], false, 0, 0, 0, 0⟩ 0 (fun c => c + 7) 5
  exact ⟨(h.1 false).1, (h.2.2 false [] rfl).1⟩

/-- **C8 (counterexample).** The claim "stolen_tasks ≤ completed_tasks at
every point" is false: `stolen_tasks_` is incremented when the task is
obtained via `steal` (line 534), before the task executes, while
`completed_tasks_` is only incremented after execution (line 572).  In the
reachable state where worker 1 has just stolen the only submitted task and
not yet finished it, `stolen_tasks = 1 > 0 = completed_tasks`. -/
theorem hp_stolen_le_completed_counterexample :
    ¬ ∀ s : HPState, HPReach (fun _ => True) s → s.stolen ≤ s.completed := by
  intro hall
  have h1 : HPReach (fun _ => True) (hpDemoSubmit (HPState.mkInit 2) incTask) :=
    HPReach.step (HPReach.init 2) (HPStep.submit trivial rfl)
  have hreach : HPReach (fun _ => True) hpStealDemo :=
    HPReach.step h1 (@HPStep.acquireSteal (fun _ => True) _ 1 [0, 0] _ _
      (by decide) rfl rfl ⟨by decide, by decide⟩ rfl)
  have h := hall hpStealDemo hreach
  have h1 : hpStealDemo.stolen = 1 := by decide
  have h2 : hpStealDemo.completed = 0 := by decide
  omega

/-- **C8 (amended).** Stolen accounting bound: at every point in a
work-stealing pool's execution, `stolen_tasks ≤ completed_tasks + active`,
where `active` is the number of tasks currently held by a worker between
dequeue and the completed-count increment (at most the worker count); in
particular `stolen_tasks ≤ completed_tasks` whenever no task is in flight —
for example after a full drain. -/
theorem hp_stolen_accounting {P : HPTask → Prop} {s : HPState}
    (hre : HPReach P s) :
    s.stolen ≤ s.completed + s.active
    ∧ s.active ≤ s.numThreads
    ∧ (s.active = 0 → s.stolen ≤ s.completed) := by
  have hI := hpInv_of_reach hre
  have h1 := hI.hstolen
  have h2 : s.inflight ≤ s.numThreads := by
    unfold HPState.inflight
    calc s.slots.countP (fun o => o.isSome) ≤ s.slots.length :=
          List.countP_le_length _
    _ = s.numThreads := hI.hsl
  exact ⟨h1, hI.hact ▸ h2, fun h0 => by omega⟩

theorem hp_stolen_accounting_witness :
    hpStealDemo.stolen ≤ hpStealDemo.completed + hpStealDemo.active
    ∧ hpStealDemo.stolen = 1 ∧ hpStealDemo.completed = 0 ∧
      hpStealDemo.active = 1 := by
  have h1 : HPReach (fun _ => True) (hpDemoSubmit (HPState.mkInit 2) incTask) :=
    HPReach.step (HPReach.init 2) (HPStep.submit trivial rfl)
  have hreach : HPReach (fun _ => True) hpStealDemo :=
    HPReach.step h1 (@HPStep.acquireSteal (fun _ => True) _ 1 [0, 0] _ _
      (by decide) rfl rfl ⟨by decide, by decide⟩ rfl)
  exact ⟨(hp_stolen_accounting hreach).1, by decide, by decide, by decide⟩

/-- **C7 (counterexample).** "Tasks that were queued but not yet started when
shutdown began are never executed" is false: a ThreadPool worker that wakes
with the stop flag set and a non-empty queue still pops and runs the front
task (it only returns when `stop_ && tasks_.empty()`), so queued tasks are
drained, not discarded.  Concretely: stop set, one queued increment task —
the worker step runs it and the completed count becomes 1. -/
theorem single_queue_shutdown_counterexample :
    ¬ ∀ s : TPState, s.stop = true →
        ∀ s', s.workerStep ≠ WorkerOutcome.ran s' := by
  intro hall
  exact hall ⟨[incTask], true, 0, 0, 0, 0⟩ rfl ⟨[], true, 0, 1, 0, 1⟩ rfl

/-- **C7 (amended).** Single-queue pool shutdown equivalence: the two
single-queue variants take observably identical worker steps (same exit /
block / run-task outcome with the same queue, completed count and task
effect), and their shutdown behavior matches the work-stealing pool's:
in-flight tasks finish, queued-but-not-started tasks when shutdown began are
still executed (drained) before the workers exit, and a worker exits only
once there is no task left for it. -/
theorem single_queue_shutdown_equivalence :
    (∀ s : TPState, s.workerStep.obs = s.fastWorkerStep.obs)
    ∧ (∀ s : TPState, s.stop = true →
        (s.workerStep = .exited ↔ s.tasks = [])
        ∧ ∀ t rest, s.tasks = t :: rest →
            s.workerStep = .ran { s with tasks := rest
                                         completed := s.completed + 1
                                         counter := (t.body s.counter).1 })
    ∧ (∀ s : HPState, HPReach (fun _ => True) s → s.stop = true →
        0 < s.pending + s.active →
        ∃ s', HPStep (fun _ => True) s s' ∧ s'.completed ≥ s.completed ∧
          2 * s'.pending + s'.active < 2 * s.pending + s.active) := by
  refine ⟨?_, ?_, ?_⟩
  · intro s
    cases h : s.tasks with
    | nil =>
        unfold TPState.workerStep TPState.fastWorkerStep
        rw [h]
    | cons t rest =>
        unfold TPState.workerStep TPState.fastWorkerStep
        rw [h]
        rfl
  · intro s hstop
    constructor
    · cases h : s.tasks with
      | nil =>
          unfold TPState.workerStep
          rw [h, hstop]
          simp
      | cons t rest =>
          unfold TPState.workerStep
          rw [h]
          constructor
          · intro h2
            exact absurd h2 (by simp)
          · intro h2
            exact absurd h2 (by simp)
    · intro t rest h
      unfold TPState.workerStep
      rw [h]
  · intro s hre _ hwork
    obtain ⟨s', h1, -, h3, h4⟩ := hp_progress (hpInv_of_reach hre) hwork
    exact ⟨s', h1, h3, h4⟩

theorem single_queue_shutdown_equivalence_witness :
    ((⟨[], true, 0, 0, 0, 0⟩ : TPState).workerStep = WorkerOutcome.exited)
    ∧ (⟨[incTask], true, 0, 0, 0, 0⟩ : TPState).workerStep.obs =
      (⟨[incTask], true, 0, 0, 0, 0⟩ : TPState).fastWorkerStep.obs := by
  have h := single_queue_shutdown_equivalence
  exact ⟨((h.2.1 ⟨[], true, 0, 0, 0, 0⟩ rfl).1).mpr rfl,
    h.1 ⟨[incTask], true, 0, 0, 0, 0⟩⟩

/-- **C9.** Fixed-rate periodic rescheduling: when a due, uncancelled
periodic entry fires (with the pool accepting work), it is handed to the pool
and reinserted with deadline `next_run + interval` — computed from the
previous *scheduled* time, never from `now` — so the outcome of the firing is
the same for every observation time past the deadline (a late firing does not
push later deadlines back), and when the new deadline is already overdue
(`next_run + interval ≤ now`) the entry fires again immediately at the same
`now`, back-to-back, rather than being coalesced. -/
theorem sched_fixed_rate (s : SchedState) (now k : Nat) (e : SchedEntry)
    (rest : List (Nat × SchedEntry))
    (hq : s.tasksQ = (k, e) :: rest)
    (hdue : k ≤ now) (hcanc : s.flags e.id = false) (hper : e.periodic = true)
    (hpool : s.poolStopped = false) :
    s.schedulerStep now = .stepped (s.fireReinsert e rest)
    ∧ (∀ now2, k ≤ now2 → s.schedulerStep now2 = s.schedulerStep now)
    ∧ (rest = [] → e.next_run + e.interval ≤ now →
        ∃ s2, (s.fireReinsert e rest).schedulerStep now = .stepped s2
          ∧ s2.poolQ.length = s.poolQ.length + 2
          ∧ s2.tasksQ = [(e.next_run + e.interval + e.interval,
              { e with next_run := e.next_run + e.interval + e.interval })]) := by
  have hstep : ∀ n2, k ≤ n2 →
      s.schedulerStep n2 = .stepped (s.fireReinsert e rest) := by
    intro n2 h2
    unfold SchedState.schedulerStep SchedState.fireReinsert
    rw [hq]
    dsimp only
    rw [if_neg (by omega), hcanc]
    simp [hpool, hper]
  refine ⟨hstep now hdue, fun now2 h2 => by rw [hstep now2 h2, hstep now hdue], ?_⟩
  intro hnil hover
  subst hnil
  refine ⟨(s.fireReinsert e []).fireReinsert
      { e with next_run := e.next_run + e.interval } [], ?_, ?_, ?_⟩
  · unfold SchedState.schedulerStep SchedState.fireReinsert insertByKey
    dsimp only
    rw [if_neg (by omega), hcanc]
    simp [hpool, hper]
  · show (s.poolQ ++ [(⟨e.id, e.taskBody⟩ : SchedWrapper)] ++
      [(⟨e.id, e.taskBody⟩ : SchedWrapper)]).length = s.poolQ.length + 2
    simp
  · rfl

theorem sched_fixed_rate_witness :
    (⟨[(3, ⟨0, 3, 10, fun c => c + 1, true⟩)], fun _ => false, [],
        false, false, 1⟩ : SchedState).schedulerStep 5 =
      .stepped ((⟨[(3, ⟨0, 3, 10, fun c => c + 1, true⟩)], fun _ => false, [],
        false, false, 1⟩ : SchedState).fireReinsert
          ⟨0, 3, 10, fun c => c + 1, true⟩ [])
    ∧ (⟨[(3, ⟨0, 3, 10, fun c => c + 1, true⟩)], fun _ => false, [],
        false, false, 1⟩ : SchedState).schedulerStep 200 =
      (⟨[(3, ⟨0, 3, 10, fun c => c + 1, true⟩)], fun _ => false, [],
        false, false, 1⟩ : SchedState).schedulerStep 5 := by
  have h := sched_fixed_rate
    ⟨[(3, ⟨0, 3, 10, fun c => c + 1, true⟩)], fun _ => false, [],
      false, false, 1⟩
    5 3 ⟨0, 3, 10, fun c => c + 1, true⟩ [] rfl (by omega) rfl rfl rfl
  exact ⟨h.1, h.2.1 200 (by omega)⟩

/-- **C10.** Cancellation double-check: (a) `cancel()` stores `true` into the
shared flag; (b) a due entry whose flag the timer thread observes set is
removed without anything being submitted to the pool — terminal, so for an
entry cancelled before the timer thread's first observation of it the task
body can never execute, it exists nowhere; and (c) the flag is checked a
second time inside the pool wrapper immediately before invoking the task
body, so a wrapper that was already handed to the pool still skips the body
(environment unchanged, body not run) when the flag reads cancelled at
execution time. -/
theorem sched_cancellation_double_check (s : SchedState) (now k : Nat)
    (e : SchedEntry) (rest : List (Nat × SchedEntry))
    (hq : s.tasksQ = (k, e) :: rest) (hdue : k ≤ now)
    (hcanc : s.flags e.id = true) :
    (∀ (s0 : SchedState) (tid : Nat), (s0.cancel tid).flags tid = true)
    ∧ s.schedulerStep now = .stepped { s with tasksQ := rest }
    ∧ (∀ (flags : Nat → Bool) (w : SchedWrapper) (env : Nat),
        flags w.flagId = true → execWrapper flags w env = (env, false)) := by
  refine ⟨?_, ?_, ?_⟩
  · intro s0 tid
    simp [SchedState.cancel]
  · unfold SchedState.schedulerStep
    rw [hq]
    dsimp only
    rw [if_neg (by omega), hcanc]
    simp
  · intro flags w env hf
    unfold execWrapper
    rw [hf]
    simp

theorem sched_cancellation_double_check_witness :
    ((⟨[(0, ⟨7, 0, 0, fun c => c + 1, false⟩)], fun i => i = 7, [],
        false, false, 8⟩ : SchedState).schedulerStep 0 = .stepped
      ⟨[], fun i => i = 7, [], false, false, 8⟩)
    ∧ execWrapper (fun i => i = 7) ⟨7, fun c => c + 1⟩ 42 = (42, false) := by
  have h := sched_cancellation_double_check
    ⟨[(0, ⟨7, 0, 0, fun c => c + 1, false⟩)], fun i => i = 7, [],
      false, false, 8⟩
    0 0 ⟨7, 0, 0, fun c => c + 1, false⟩ [] rfl (by omega) (by simp)
  exact ⟨h.2.1, h.2.2 (fun i => i = 7) ⟨7, fun c => c + 1⟩ 42 (by simp)⟩

end ThreadSchedule
